import Mathlib

/-!
# blicalc: tokenizer, shunting-yard parser and tree evaluator

A shallow embedding of `src/blicalc.cpp`.

* `std::vector` is a `List`.  The two vectors the parser uses as stacks
  (`output` and `ops`) are lists whose head is `back ()`; `tokens`,
  `children` and `args` keep index order.
* `std::optional<T>` is `Option T`; `std::nullopt` is `none`.
* What leaves a function other than by `return` (an exception thrown by
  `std::stod`, or a read the language leaves undefined such as `back ()` of an
  empty string or `children [0]` of an empty vector) is an `Exn`, carried by
  `Except`.
* `double`, `std::complex<double>` arithmetic and the `<cmath>` functions are
  not defined in the repository: they are the fields of a `FloatEnv`, and every
  definition that computes with them takes the environment as its argument.
-/

namespace Blicalc

/-! ## Floating point environment -/

/-- The value of `std::complex<T>`: a real and an imaginary component. -/
structure Complex (D : Type) where
  re : D
  im : D

/-- The `double` type with the library operations the calculator calls.
`strtod s` is the value `std::strtod` converts the text `s` to when a
conversion is performed, `none` when the value is out of range (`ERANGE`). -/
structure FloatEnv where
  D : Type
  zero : D
  one : D
  M_PI : D
  M_E : D
  eq : D → D → Bool
  neg : D → D
  neg_neg : ∀ x, neg (neg x) = x
  add : Complex D → Complex D → Complex D
  sub : Complex D → Complex D → Complex D
  mul : Complex D → Complex D → Complex D
  div : Complex D → Complex D → Complex D
  pow : Complex D → Complex D → Complex D
  sin : Complex D → Complex D
  cos : Complex D → Complex D
  tan : Complex D → Complex D
  log : Complex D → Complex D
  strtod : String → Option D

/-- What escapes a function instead of a returned value. -/
inductive Exn where
  | invalid_argument
  | out_of_range
  | undefined_behaviour
  deriving DecidableEq, Repr

/-! ## Data types -/

/-- The enumeration `Token::Type`. -/
inductive TokenType where
  | Number
  | Identifier
  | Operator
  | LeftParen
  | RightParen
  | Comma
  | End
  deriving DecidableEq, Repr

/-- The struct `Token`. -/
structure Token where
  type : TokenType
  text : String
  deriving DecidableEq, Repr

/-- The enumeration `ExprNode::Type`. -/
inductive NodeType where
  | Value
  | BinaryOp
  | Function
  | UnaryOp
  deriving DecidableEq, Repr

/-- The struct `ExprNode`: all four members are present in every node. -/
inductive ExprNode (C : Type) : Type where
  | mk (type : NodeType) (op : String) (children : List (ExprNode C)) (val : Option C)

namespace ExprNode

/-- Member `type`. -/
def type {C : Type} : ExprNode C → NodeType
  | mk t _ _ _ => t

/-- Member `op`. -/
def op {C : Type} : ExprNode C → String
  | mk _ o _ _ => o

/-- Member `children`. -/
def children {C : Type} : ExprNode C → List (ExprNode C)
  | mk _ _ cs _ => cs

/-- Member `val`. -/
def val {C : Type} : ExprNode C → Option C
  | mk _ _ _ v => v

end ExprNode

/-- `OptValue` of the source over the environment's doubles. -/
abbrev OptValue (F : FloatEnv) : Type := Option (Complex F.D)

/-- The node type of an environment. -/
abbrev Node (F : FloatEnv) : Type := ExprNode (Complex F.D)

/-! ## Tables and classification helpers -/

/-- The map `prec`, as a lookup. -/
def prec (op : String) : Option Int :=
  if op = "+" then some 1
  else if op = "-" then some 1
  else if op = "*" then some 2
  else if op = "/" then some 2
  else if op = "%" then some 2
  else if op = "^" then some 3
  else if op = "u+" then some 4
  else if op = "u-" then some 4
  else none

/-- The map `func_argc`, as a lookup. -/
def func_argc (f : String) : Option Nat :=
  if f = "sin" then some 1
  else if f = "cos" then some 1
  else if f = "tan" then some 1
  else if f = "cot" then some 1
  else if f = "sec" then some 1
  else if f = "csc" then some 1
  else if f = "log" then some 2
  else if f = "rt" then some 2
  else none

/-- `is_func`: the name is a key of `func_argc`. -/
def is_func (f : String) : Bool := (func_argc f).isSome

/-- `is_left_assoc`: `op != "^" && op.find ('u') != 0`; `find` gives index 0
exactly when the first character is `u`. -/
def is_left_assoc (op : String) : Bool :=
  op != "^" && op.data.head? != some 'u'

/-- `precedence`: the table entry, `-1` for a missing key. -/
def precedence (op : String) : Int := (prec op).getD (-1)

/-! ## Lexer -/

/-- `isspace` in the C locale. -/
def isspace (c : Char) : Bool :=
  c = ' ' || c = '\t' || c = '\n' || c = '\x0b' || c = '\x0c' || c = '\r'

/-- `isdigit`. -/
def isdigit (c : Char) : Bool := '0' ≤ c && c ≤ '9'

/-- `isalpha` in the C locale. -/
def isalpha (c : Char) : Bool := ('a' ≤ c && c ≤ 'z') || ('A' ≤ c && c ≤ 'Z')

/-- The test of the inner loop of a number: `isdigit (s [j]) || s [j] == '.'`. -/
def isnumch (c : Char) : Bool := isdigit c || c = '.'

/-- The `switch` on a single character: the token it appends, if any. -/
def punct (c : Char) : Option Token :=
  if c = '+' ∨ c = '-' ∨ c = '*' ∨ c = '/' ∨ c = '%' ∨ c = '^' then
    some ⟨TokenType.Operator, String.singleton c⟩
  else if c = '(' then some ⟨TokenType.LeftParen, "("⟩
  else if c = ')' then some ⟨TokenType.RightParen, ")"⟩
  else if c = ',' then some ⟨TokenType.Comma, ","⟩
  else none

/-- The text of the Number token that starts at the head of `cs`: the run of
digits and dots, and the `i` that follows it when there is one. -/
def number_text (cs : List Char) : List Char :=
  let run := cs.takeWhile isnumch
  let has_i := (cs.dropWhile isnumch).head? = some 'i'
  run ++ (if has_i then ['i'] else [])

/-- The body of the `while (i < s.size ())` loop of `lexer`, from index `i` on
the characters `s [i], s [i+1], ...`.  The first argument is the number of
characters that the token just appended still covers: `i = j` after a
multi-character token is `skip` steps over the characters of that token. -/
def lex_loop : Nat → List Char → List Token
  | _, [] => []
  | skip + 1, _ :: cs => lex_loop skip cs
  | 0, c :: cs =>
    if isspace c then lex_loop 0 cs
    else if isnumch c then
      let num := number_text (c :: cs)
      ⟨TokenType.Number, String.mk num⟩ :: lex_loop (num.length - 1) cs
    else if isalpha c then
      let id := (c :: cs).takeWhile isalpha
      ⟨TokenType.Identifier, String.mk id⟩ :: lex_loop (id.length - 1) cs
    else
      match punct c with
      | some t => t :: lex_loop 0 cs
      | none => lex_loop 0 cs

/-- `lexer`: the tokens of the line, then the End token. -/
def lexer (s : String) : List Token :=
  lex_loop 0 s.data ++ [⟨TokenType.End, ""⟩]

/-! ## Constants and numeric conversion -/

/-- `parse_const`. -/
def parse_const (F : FloatEnv) (id : String) : OptValue F :=
  if id = "pi" then some ⟨F.M_PI, F.zero⟩
  else if id = "e" then some ⟨F.M_E, F.zero⟩
  else none

/-- Lower-case form of an ASCII letter, other characters unchanged. -/
def lower (c : Char) : Char :=
  if 'A' ≤ c ∧ c ≤ 'Z' then Char.ofNat (c.toNat + 32) else c

/-- Whether `std::strtod` performs a conversion on the text: after leading
white space and one optional sign there is a digit (a hexadecimal number
starts with the digit `0`), a `.` followed by a digit, or `inf` or `nan` in
any letter case. -/
def strtod_converts (s : String) : Bool :=
  let body := s.data.dropWhile isspace
  let body := match body with
    | '+' :: r => r
    | '-' :: r => r
    | r => r
  match body with
  | c :: r =>
    isdigit c
      || (c = '.' && (match r with
            | d :: _ => isdigit d
            | [] => false))
      || (match r with
            | c1 :: c2 :: _ =>
              [lower c, lower c1, lower c2] = ['i', 'n', 'f']
                || [lower c, lower c1, lower c2] = ['n', 'a', 'n']
            | _ => false)
  | [] => false

/-- `std::stod`: throws `std::invalid_argument` when no conversion can be
performed and `std::out_of_range` when the value is out of range. -/
def stod (F : FloatEnv) (s : String) : Except Exn F.D :=
  if strtod_converts s then
    match F.strtod s with
    | some d => .ok d
    | none => .error Exn.out_of_range
  else .error Exn.invalid_argument

/-- The value the parser gives a Number token of text `val`
(`parse_expr`, the branch `t.type == Token :: Number`). -/
def number_value (F : FloatEnv) (val : String) : Except Exn (Complex F.D) :=
  match val.data.getLast? with
  | none => .error Exn.undefined_behaviour
  | some last =>
    if last = 'i' then
      match stod F (String.mk val.data.dropLast) with
      | .ok im => .ok ⟨F.zero, im⟩
      | .error e => .error e
    else
      match stod F val with
      | .ok x => .ok ⟨x, F.zero⟩
      | .error e => .error e

/-! ## Binary operations and built-in functions -/

/-- `r == Complex (0,0)`: both components compare equal to `0.0`. -/
def is_zero (F : FloatEnv) (r : Complex F.D) : Bool :=
  F.eq r.re F.zero && F.eq r.im F.zero

/-- `bin_op`. -/
def bin_op (F : FloatEnv) (op : String) (l r : Complex F.D) : OptValue F :=
  if op = "+" then some (F.add l r)
  else if op = "-" then some (F.sub l r)
  else if op = "*" then some (F.mul l r)
  else if op = "/" then (if is_zero F r then none else some (F.div l r))
  else if op = "%" then none
  else if op = "^" then some (F.pow l r)
  else none

/-- The double `1.0` converted to a complex number, as the operator
`double / complex` does with its left operand. -/
def c_one (F : FloatEnv) : Complex F.D := ⟨F.one, F.zero⟩

/-- `args [i]`: reading past the end of the vector is undefined. -/
def arg_at {α : Type} (args : List α) (i : Nat) : Except Exn α :=
  match args.get? i with
  | some a => .ok a
  | none => .error Exn.undefined_behaviour

/-- `call_func`. -/
def call_func (F : FloatEnv) (f : String) (args : List (Complex F.D)) :
    Except Exn (OptValue F) :=
  if f = "sin" then (arg_at args 0).map (fun a => some (F.sin a))
  else if f = "cos" then (arg_at args 0).map (fun a => some (F.cos a))
  else if f = "tan" then (arg_at args 0).map (fun a => some (F.tan a))
  else if f = "cot" then (arg_at args 0).map (fun a => some (F.div (c_one F) (F.tan a)))
  else if f = "sec" then (arg_at args 0).map (fun a => some (F.div (c_one F) (F.cos a)))
  else if f = "csc" then (arg_at args 0).map (fun a => some (F.div (c_one F) (F.sin a)))
  else if f = "log" ∧ args.length = 2 then
    (arg_at args 1).bind (fun a1 => (arg_at args 0).map (fun a0 =>
      some (F.div (F.log a1) (F.log a0))))
  else if f = "rt" ∧ args.length = 2 then
    (arg_at args 1).bind (fun a1 => (arg_at args 0).map (fun a0 =>
      some (F.pow a1 (F.div (c_one F) a0))))
  else .ok none

/-! ## Parser -/

/-- A node of type `Value`: `{ExprNode :: Value, "", {}, v}`. -/
def value_node (F : FloatEnv) (v : Complex F.D) : Node F :=
  ExprNode.mk NodeType.Value "" [] (some v)

/-- A node of type `BinaryOp`: `{ExprNode :: BinaryOp, op, {l, r}, std :: nullopt}`. -/
def binary_node (F : FloatEnv) (op : String) (l r : Node F) : Node F :=
  ExprNode.mk NodeType.BinaryOp op [l, r] none

/-- A node of type `UnaryOp`: `{ExprNode :: UnaryOp, op, {operand}, std :: nullopt}`. -/
def unary_node (F : FloatEnv) (op : String) (operand : Node F) : Node F :=
  ExprNode.mk NodeType.UnaryOp op [operand] none

/-- A node of type `Function`: `{ExprNode :: Function, f, args, std :: nullopt}`. -/
def function_node (F : FloatEnv) (f : String) (args : List (Node F)) : Node F :=
  ExprNode.mk NodeType.Function f args none

/-- The lambda `pop_op` of `parse_expr`, once `top = ops.back ()` has been
taken off `ops`: the new `output`, or `none` where the lambda returns
`false`.  Every call of the lambda stands behind a test `!ops.empty ()`, so
its first line never returns.  `output` has its back at the head: the `argc`
nodes taken for a function are `output.take argc`, and `args [0]` is the
deepest of them. -/
def pop_op (F : FloatEnv) (top : Token) (output : List (Node F)) : Option (List (Node F)) :=
  match func_argc top.text with
  | some argc =>
    if output.length < argc then none
    else some (function_node F top.text (output.take argc).reverse :: output.drop argc)
  | none =>
    if top.text = "u-" then
      match output with
      | [] => none
      | operand :: rest => some (unary_node F "-" operand :: rest)
    else if top.text = "u+" then
      match output with
      | [] => none
      | operand :: rest => some (unary_node F "+" operand :: rest)
    else
      match output with
      | r :: l :: rest => some (binary_node F top.text l r :: rest)
      | _ => none

/-- The test of the loop of the Operator branch: the top of `ops` is popped
before `op_text` is pushed. -/
def pops_before (op_text : String) (top : Token) : Bool :=
  top.type = TokenType.Operator &&
    ((is_left_assoc op_text && decide (precedence op_text ≤ precedence top.text)) ||
     (!is_left_assoc op_text && decide (precedence op_text < precedence top.text)))

/-- The loop of the Operator branch: `none` where `parse_expr` returns
`std::nullopt`, otherwise `output` and `ops` when the loop ends. -/
def pop_operators (F : FloatEnv) (op_text : String) :
    List (Node F) → List Token → Option (List (Node F) × List Token)
  | output, [] => some (output, [])
  | output, top :: ops =>
    if pops_before op_text top then
      match pop_op F top output with
      | none => none
      | some output1 => pop_operators F op_text output1 ops
    else some (output, top :: ops)

/-- The loop of the RightParen branch with the test `if (!found)` after it:
pops down to the nearest left parenthesis and takes it off `ops`. -/
def close_paren (F : FloatEnv) :
    List (Node F) → List Token → Option (List (Node F) × List Token)
  | _, [] => none
  | output, top :: ops =>
    if top.type = TokenType.LeftParen then some (output, ops)
    else
      match pop_op F top output with
      | none => none
      | some output1 => close_paren F output1 ops

/-- The loop of the Comma branch with the test `if (!found)` after it: pops
down to the nearest left parenthesis and leaves it on `ops`. -/
def pop_to_paren (F : FloatEnv) :
    List (Node F) → List Token → Option (List (Node F) × List Token)
  | _, [] => none
  | output, top :: ops =>
    if top.type = TokenType.LeftParen then some (output, top :: ops)
    else
      match pop_op F top output with
      | none => none
      | some output1 => pop_to_paren F output1 ops

/-- The loop after the token loop: everything left on `ops` is popped, a
parenthesis is a failure. -/
def drain (F : FloatEnv) : List (Node F) → List Token → Option (List (Node F))
  | output, [] => some output
  | output, top :: ops =>
    if top.type = TokenType.LeftParen ∨ top.type = TokenType.RightParen then none
    else
      match pop_op F top output with
      | none => none
      | some output1 => drain F output1 ops

/-- The local variables of `parse_expr`. -/
structure PState (F : FloatEnv) where
  output : List (Node F)
  ops : List Token
  expect_operand : Bool

/-- The token loop of `parse_expr` from `tokens [i]` on, `tokens [i], ...`
being the list: the state at the `break` or at the end of the tokens,
`.ok none` where the function returns `std::nullopt`, `.error` where
`std::stod` throws or the empty text of a Number token is read. -/
def parse_loop (F : FloatEnv) : List Token → PState F → Except Exn (Option (PState F))
  | [], st => .ok (some st)
  | t :: ts, st =>
    match t.type with
    | TokenType.Number =>
      match number_value F t.text with
      | .error e => .error e
      | .ok v => parse_loop F ts ⟨value_node F v :: st.output, st.ops, false⟩
    | TokenType.Identifier =>
      match parse_const F t.text with
      | some c => parse_loop F ts ⟨value_node F c :: st.output, st.ops, false⟩
      | none =>
        if is_func t.text then parse_loop F ts ⟨st.output, t :: st.ops, true⟩
        else .ok none
    | TokenType.Operator =>
      let op_text :=
        if st.expect_operand ∧ (t.text = "-" ∨ t.text = "+") then "u" ++ t.text else t.text
      match pop_operators F op_text st.output st.ops with
      | none => .ok none
      | some (output, ops) =>
        parse_loop F ts ⟨output, ⟨TokenType.Operator, op_text⟩ :: ops, true⟩
    | TokenType.LeftParen => parse_loop F ts ⟨st.output, t :: st.ops, true⟩
    | TokenType.RightParen =>
      match close_paren F st.output st.ops with
      | none => .ok none
      | some (output, ops) =>
        match ops with
        | top :: ops1 =>
          if top.type = TokenType.Identifier ∧ is_func top.text then
            match pop_op F top output with
            | none => .ok none
            | some output1 => parse_loop F ts ⟨output1, ops1, false⟩
          else parse_loop F ts ⟨output, ops, false⟩
        | [] => parse_loop F ts ⟨output, ops, false⟩
    | TokenType.Comma =>
      match pop_to_paren F st.output st.ops with
      | none => .ok none
      | some (output, ops) => parse_loop F ts ⟨output, ops, true⟩
    | TokenType.End => .ok (some st)

/-- `parse_expr`: `.ok (some tree)` is the returned tree, `.ok none` is
`std::nullopt` (parse failure), `.error` is what escapes the function. -/
def parse_expr (F : FloatEnv) (tokens : List Token) : Except Exn (Option (Node F)) :=
  match parse_loop F tokens ⟨[], [], true⟩ with
  | .error e => .error e
  | .ok none => .ok none
  | .ok (some st) =>
    match drain F st.output st.ops with
    | none => .ok none
    | some [root] => .ok (some root)
    | some _ => .ok none

/-! ## Evaluation -/

/-- `eval_expr`.  `children [0]` and `children [1]` of a vector that is too
short, and `args [0]` of an empty argument vector, are undefined reads.  The
second function is the loop of the Function case over `node.children`: the
values of the children, `none` as soon as one child has no value. -/
def eval_expr (F : FloatEnv) : Node F → Except Exn (OptValue F)
  | ExprNode.mk NodeType.Value _ _ val => .ok val
  | ExprNode.mk NodeType.BinaryOp op children _ =>
    match children with
    | c0 :: c1 :: _ =>
      match eval_expr F c0 with
      | .error e => .error e
      | .ok l =>
        match eval_expr F c1 with
        | .error e => .error e
        | .ok r =>
          match l, r with
          | some lv, some rv => .ok (bin_op F op lv rv)
          | _, _ => .ok none
    | _ => .error Exn.undefined_behaviour
  | ExprNode.mk NodeType.Function op children _ =>
    match eval_args F children with
    | .error e => .error e
    | .ok none => .ok none
    | .ok (some args) => call_func F op args
  | ExprNode.mk NodeType.UnaryOp op children _ =>
    match children with
    | c0 :: _ =>
      match eval_expr F c0 with
      | .error e => .error e
      | .ok none => .ok none
      | .ok (some v) =>
        if op = "-" then .ok (some ⟨F.neg v.re, F.neg v.im⟩)
        else if op = "+" then .ok (some v)
        else .ok none
    | [] => .error Exn.undefined_behaviour
where
  /-- The loop `for (auto & c : node.children)`. -/
  eval_args (F : FloatEnv) : List (Node F) → Except Exn (Option (List (Complex F.D)))
    | [] => .ok (some [])
    | c :: cs =>
      match eval_expr F c with
      | .error e => .error e
      | .ok none => .ok none
      | .ok (some v) =>
        match eval_args F cs with
        | .error e => .error e
        | .ok none => .ok none
        | .ok (some vs) => .ok (some (v :: vs))

/-! ## A small environment for concrete instances

Doubles are integers here; `strtod` reads the leading decimal digits of the
text.  The statements below hold in every environment; this one instantiates
them at concrete inputs. -/

/-- The value of a run of decimal digits. -/
def digits_value (cs : List Char) : Int :=
  cs.foldl (fun acc c => acc * 10 + ((c.toNat : Int) - 48)) 0

/-- The product of two complex numbers over the integers. -/
def int_mul (l r : Complex Int) : Complex Int :=
  ⟨l.re * r.re - l.im * r.im, l.re * r.im + l.im * r.re⟩

/-- The power with a natural exponent, by repeated multiplication. -/
def int_pow (l : Complex Int) : Nat → Complex Int
  | 0 => ⟨1, 0⟩
  | n + 1 => int_mul (int_pow l n) l

/-- An environment over the integers: exact sums, differences and products,
the quotient rounded component by component, the power with the real part of
the exponent as a natural number.  The trigonometric functions and the
logarithm have no counterpart; they are the identity map. -/
def intEnv : FloatEnv where
  D := Int
  zero := 0
  one := 1
  M_PI := 3
  M_E := 2
  eq := fun a b => decide (a = b)
  neg := fun a => -a
  neg_neg := fun a => Int.neg_neg a
  add := fun l r => ⟨l.re + r.re, l.im + r.im⟩
  sub := fun l r => ⟨l.re - r.re, l.im - r.im⟩
  mul := int_mul
  div := fun l r =>
    ⟨(l.re * r.re + l.im * r.im) / (r.re * r.re + r.im * r.im),
     (l.im * r.re - l.re * r.im) / (r.re * r.re + r.im * r.im)⟩
  pow := fun l r => int_pow l r.re.toNat
  sin := fun z => z
  cos := fun z => z
  tan := fun z => z
  log := fun z => z
  strtod := fun s => some (digits_value (s.data.takeWhile isdigit))

/-- The real number `n` of the integer environment. -/
def int_re (n : Int) : Complex intEnv.D := ⟨n, (0 : Int)⟩

/-! ## Vocabulary of the statements -/

/-- The six binary operator symbols. -/
def binary_ops : List String := ["+", "-", "*", "/", "%", "^"]

/-- The two sign symbols. -/
def sign_ops : List String := ["+", "-"]

/-- A Number token. -/
def tk_num (text : String) : Token := ⟨TokenType.Number, text⟩

/-- An Operator token. -/
def tk_op (text : String) : Token := ⟨TokenType.Operator, text⟩

/-- An Identifier token. -/
def tk_id (text : String) : Token := ⟨TokenType.Identifier, text⟩

/-- The LeftParen token of the lexer. -/
def tk_lp : Token := ⟨TokenType.LeftParen, "("⟩

/-- The RightParen token of the lexer. -/
def tk_rp : Token := ⟨TokenType.RightParen, ")"⟩

/-- The Comma token of the lexer. -/
def tk_comma : Token := ⟨TokenType.Comma, ","⟩

/-- The End token of the lexer. -/
def tk_end : Token := ⟨TokenType.End, ""⟩

/-- The tokens of an argument list: the Number tokens of the texts with a
Comma token between neighbours. -/
def arg_tokens (as : List String) : List Token :=
  (as.map tk_num).intersperse tk_comma

/-- The tokens of the whole input `f(a1,...,ak)`. -/
def call_tokens (f : String) (as : List String) : List Token :=
  tk_id f :: tk_lp :: (arg_tokens as ++ [tk_rp, tk_end])

/-- The tokens `parse_expr` consumes: those before the first End token. -/
def before_end (ts : List Token) : List Token :=
  ts.takeWhile (fun t => t.type ≠ TokenType.End)

/-- The number of left parenthesis tokens of a list. -/
def count_left (ts : List Token) : Nat :=
  ts.countP (fun t => t.type = TokenType.LeftParen)

/-- The number of right parenthesis tokens of a list. -/
def count_right (ts : List Token) : Nat :=
  ts.countP (fun t => t.type = TokenType.RightParen)

/-- The parentheses of a token list are not balanced: some initial part has
more right than left parentheses, or the total counts differ. -/
def unbalanced (ts : List Token) : Prop :=
  (∃ n, count_left (ts.take n) < count_right (ts.take n)) ∨ count_left ts ≠ count_right ts

/-- The names the parser knows: the constants and the functions. -/
def known_names : List String :=
  ["pi", "e", "sin", "cos", "tan", "cot", "sec", "csc", "log", "rt"]

/-- A tree that is well-formed at every node: a BinaryOp node has exactly two
children and one of the six binary operators, a UnaryOp node has exactly one
child and the operator `+` or `-`, a Function node names a function of the
arity table and has that function's number of children, a Value node has no
children and a present value. -/
inductive WellFormed (F : FloatEnv) : Node F → Prop where
  | value (op : String) (v : Complex F.D) :
      WellFormed F (ExprNode.mk NodeType.Value op [] (some v))
  | binary (op : String) (l r : Node F) (val : Option (Complex F.D)) :
      op ∈ binary_ops → WellFormed F l → WellFormed F r →
      WellFormed F (ExprNode.mk NodeType.BinaryOp op [l, r] val)
  | unary (op : String) (operand : Node F) (val : Option (Complex F.D)) :
      op ∈ sign_ops → WellFormed F operand →
      WellFormed F (ExprNode.mk NodeType.UnaryOp op [operand] val)
  | function (f : String) (args : List (Node F)) (val : Option (Complex F.D)) :
      func_argc f = some args.length → (∀ c ∈ args, WellFormed F c) →
      WellFormed F (ExprNode.mk NodeType.Function f args val)

/-- The Operator tokens of a sequence carry one of the six operator symbols,
as every Operator token of the lexer does. -/
def operators_lexical (ts : List Token) : Prop :=
  ∀ tok ∈ ts, tok.type = TokenType.Operator → tok.text ∈ binary_ops

/-- What `pop_op` turns into a well-formed node: a function name, a binary
operator symbol or a rewritten sign. -/
def poppable (tok : Token) : Prop :=
  (func_argc tok.text).isSome ∨ tok.text ∈ binary_ops ∨ tok.text = "u+" ∨ tok.text = "u-"

/-- Invariant of `ops`: every entry that is not a left parenthesis is poppable. -/
def ops_ok (ops : List Token) : Prop :=
  ∀ tok ∈ ops, tok.type ≠ TokenType.LeftParen → poppable tok

/-- Invariant of `output`: every node is well-formed. -/
def output_ok (F : FloatEnv) (output : List (Node F)) : Prop :=
  ∀ n ∈ output, WellFormed F n

/-- `Subtree F s t`: `s` is a node of the tree `t`, that is `t` itself or a
node of one of its children. -/
inductive Subtree (F : FloatEnv) (s : Node F) : Node F → Prop where
  | refl : Subtree F s s
  | child (c : Node F) (type : NodeType) (op : String) (children : List (Node F))
      (val : Option (Complex F.D)) :
      c ∈ children → Subtree F s c → Subtree F s (ExprNode.mk type op children val)

/-- The two documented causes of an evaluation failure, at one node: a
BinaryOp node with operator `%`, or a BinaryOp node with operator `/` whose
right child evaluates to a value that compares equal to `Complex (0,0)`. -/
def documented_failure (F : FloatEnv) (s : Node F) : Prop :=
  s.type = NodeType.BinaryOp ∧
    (s.op = "%" ∨
      (s.op = "/" ∧ ∃ r z, s.children.get? 1 = some r ∧
        eval_expr F r = .ok (some z) ∧ is_zero F z = true))

/-- The shape of a tree alone: a BinaryOp node has two children, a UnaryOp
node one, a Function node the number its function declares, a Value node
none. -/
inductive WellShaped (F : FloatEnv) : Node F → Prop where
  | value (op : String) (val : Option (Complex F.D)) :
      WellShaped F (ExprNode.mk NodeType.Value op [] val)
  | binary (op : String) (l r : Node F) (val : Option (Complex F.D)) :
      WellShaped F l → WellShaped F r →
      WellShaped F (ExprNode.mk NodeType.BinaryOp op [l, r] val)
  | unary (op : String) (operand : Node F) (val : Option (Complex F.D)) :
      WellShaped F operand →
      WellShaped F (ExprNode.mk NodeType.UnaryOp op [operand] val)
  | function (f : String) (args : List (Node F)) (val : Option (Complex F.D)) :
      func_argc f = some args.length → (∀ c ∈ args, WellShaped F c) →
      WellShaped F (ExprNode.mk NodeType.Function f args val)

/-- The token on `ops` for a sign read where an operand is expected: the
Operator token of the rewritten text `u+` or `u-`. -/
def tk_sign (s : String) : Token := ⟨TokenType.Operator, "u" ++ s⟩

/-- The tree of stacked signs `s1 s2 ... sn` over an operand:
`s1 (s2 (... sn (operand)))`. -/
def nest_signs (F : FloatEnv) (signs : List String) (operand : Node F) : Node F :=
  signs.foldr (unary_node F) operand

/-- The characters the lexer keeps: a digit, `.`, a letter, one of the six
operator characters, a parenthesis or a comma. -/
def recognised (c : Char) : Bool :=
  isdigit c || c = '.' || isalpha c ||
    c = '+' || c = '-' || c = '*' || c = '/' || c = '%' || c = '^' ||
    c = '(' || c = ')' || c = ','

/-- The values of the Value nodes of a tree, read left to right (children in
order).  The second function reads a list of trees in order. -/
def leaf_values (F : FloatEnv) : Node F → List (OptValue F)
  | ExprNode.mk NodeType.Value _ _ val => [val]
  | ExprNode.mk NodeType.BinaryOp _ children _ => leaf_values_list F children
  | ExprNode.mk NodeType.Function _ children _ => leaf_values_list F children
  | ExprNode.mk NodeType.UnaryOp _ children _ => leaf_values_list F children
where
  /-- The values of the Value nodes of a list of trees, in order. -/
  leaf_values_list (F : FloatEnv) : List (Node F) → List (OptValue F)
    | [] => []
    | c :: cs => leaf_values F c ++ leaf_values_list F cs

/-- The number of BinaryOp, UnaryOp and Function nodes of a tree.  The second
function adds the numbers of a list of trees. -/
def count_operations (F : FloatEnv) : Node F → Nat
  | ExprNode.mk NodeType.Value _ _ _ => 0
  | ExprNode.mk NodeType.BinaryOp _ children _ => 1 + count_operations_list F children
  | ExprNode.mk NodeType.Function _ children _ => 1 + count_operations_list F children
  | ExprNode.mk NodeType.UnaryOp _ children _ => 1 + count_operations_list F children
where
  /-- The number of BinaryOp, UnaryOp and Function nodes of a list of trees. -/
  count_operations_list (F : FloatEnv) : List (Node F) → Nat
    | [] => 0
    | c :: cs => count_operations F c + count_operations_list F cs

/-- The value a token stands for: the value of a Number token whose
conversion succeeds, the value of a constant; other tokens stand for none. -/
def token_operand (F : FloatEnv) (t : Token) : Option (Complex F.D) :=
  match t.type with
  | TokenType.Number =>
    match number_value F t.text with
    | .ok v => some v
    | .error _ => none
  | TokenType.Identifier => parse_const F t.text
  | _ => none

/-- The values of the Number and constant tokens before the first End token,
in token order. -/
def operand_values (F : FloatEnv) (ts : List Token) : List (Complex F.D) :=
  (before_end ts).filterMap (token_operand F)

/-- An Operator token or an Identifier token that names a function. -/
def is_operation_token (t : Token) : Bool :=
  t.type = TokenType.Operator || (t.type = TokenType.Identifier && is_func t.text)

/-- The number of Operator and function-name Identifier tokens before the
first End token. -/
def operation_count (ts : List Token) : Nat :=
  (before_end ts).countP is_operation_token

/-- The number of entries of `ops` that are not a left parenthesis. -/
def pending (ops : List Token) : Nat :=
  ops.countP (fun t => t.type ≠ TokenType.LeftParen)

/-! ## Token loop, one token at a time -/

theorem parse_loop_number (F : FloatEnv) (a : String) (v : Complex F.D) (ts : List Token)
    (st : PState F) (h : number_value F a = .ok v) :
    parse_loop F (tk_num a :: ts) st
      = parse_loop F ts ⟨value_node F v :: st.output, st.ops, false⟩ := by
  simp [parse_loop, tk_num, h]

/-! ## Precedence and associativity (C1, C2, C3) -/

/-- C1: for numeric literals `a`, `b`, `c` and binary operators `o1`, `o2` of
different precedence, `parse_expr` on the tokens of `a o1 b o2 c` lets the
operator of higher precedence bind tighter: `o1 (a, o2 (b, c))` when `o2` is
the higher one, `o2 (o1 (a, b), c)` when `o1` is. -/
theorem C1_higher_precedence_binds_tighter (F : FloatEnv) (a b c : String)
    (va vb vc : Complex F.D) (o1 o2 : String)
    (ha : number_value F a = .ok va) (hb : number_value F b = .ok vb)
    (hc : number_value F c = .ok vc) (h1 : o1 ∈ binary_ops) (h2 : o2 ∈ binary_ops) :
    (precedence o1 < precedence o2 →
      parse_expr F [tk_num a, tk_op o1, tk_num b, tk_op o2, tk_num c, tk_end]
        = .ok (some (binary_node F o1 (value_node F va)
            (binary_node F o2 (value_node F vb) (value_node F vc))))) ∧
    (precedence o2 < precedence o1 →
      parse_expr F [tk_num a, tk_op o1, tk_num b, tk_op o2, tk_num c, tk_end]
        = .ok (some (binary_node F o2
            (binary_node F o1 (value_node F va) (value_node F vb)) (value_node F vc)))) := by
  simp only [binary_ops, List.mem_cons, List.mem_singleton, List.not_mem_nil, or_false] at h1 h2
  rcases h1 with rfl | rfl | rfl | rfl | rfl | rfl <;>
  rcases h2 with rfl | rfl | rfl | rfl | rfl | rfl <;>
  simp +decide [parse_expr, parse_loop, ha, hb, hc, tk_num, tk_op, tk_end, binary_node,
    pop_operators, pops_before, pop_op, drain, precedence, prec, is_left_assoc, func_argc]

/-- C1 at `2+3*4` in the integer environment: the tree is `+ (2, * (3, 4))`. -/
theorem C1_witness :
    precedence "+" < precedence "*" ∧
    parse_expr intEnv [tk_num "2", tk_op "+", tk_num "3", tk_op "*", tk_num "4", tk_end]
      = .ok (some (binary_node intEnv "+" (value_node intEnv (int_re 2))
          (binary_node intEnv "*" (value_node intEnv (int_re 3)) (value_node intEnv (int_re 4))))) :=
  ⟨by decide,
   (C1_higher_precedence_binds_tighter intEnv "2" "3" "4" (int_re 2) (int_re 3) (int_re 4) "+" "*"
      rfl rfl rfl (by decide) (by decide)).1 (by decide)⟩

/-- C2: for numeric literals `a`, `b`, `c` and binary operators `o1`, `o2` of
the same precedence, `parse_expr` on the tokens of `a o1 b o2 c` groups to
the left, `o2 (o1 (a, b), c)`, when the operators are among `+ - * / %`, and
to the right, `^ (a, ^ (b, c))`, when both are `^`. -/
theorem C2_associativity (F : FloatEnv) (a b c : String)
    (va vb vc : Complex F.D) (o1 o2 : String)
    (ha : number_value F a = .ok va) (hb : number_value F b = .ok vb)
    (hc : number_value F c = .ok vc) (h1 : o1 ∈ binary_ops) (h2 : o2 ∈ binary_ops)
    (hp : precedence o1 = precedence o2) :
    (o1 ≠ "^" →
      parse_expr F [tk_num a, tk_op o1, tk_num b, tk_op o2, tk_num c, tk_end]
        = .ok (some (binary_node F o2
            (binary_node F o1 (value_node F va) (value_node F vb)) (value_node F vc)))) ∧
    (o1 = "^" →
      o2 = "^" ∧
      parse_expr F [tk_num a, tk_op o1, tk_num b, tk_op o2, tk_num c, tk_end]
        = .ok (some (binary_node F "^" (value_node F va)
            (binary_node F "^" (value_node F vb) (value_node F vc))))) := by
  simp only [binary_ops, List.mem_cons, List.mem_singleton, List.not_mem_nil, or_false] at h1 h2
  rcases h1 with rfl | rfl | rfl | rfl | rfl | rfl <;>
  rcases h2 with rfl | rfl | rfl | rfl | rfl | rfl <;>
  first
  | (exfalso; revert hp; decide)
  | simp +decide [parse_expr, parse_loop, ha, hb, hc, tk_num, tk_op, tk_end, binary_node,
      pop_operators, pops_before, pop_op, drain, precedence, prec, is_left_assoc, func_argc]

/-- C2 at `2^3^2` in the integer environment: the tree is `^ (2, ^ (3, 2))`. -/
theorem C2_witness :
    parse_expr intEnv [tk_num "2", tk_op "^", tk_num "3", tk_op "^", tk_num "2", tk_end]
      = .ok (some (binary_node intEnv "^" (value_node intEnv (int_re 2))
          (binary_node intEnv "^" (value_node intEnv (int_re 3)) (value_node intEnv (int_re 2))))) :=
  ((C2_associativity intEnv "2" "3" "2" (int_re 2) (int_re 3) (int_re 2) "^" "^"
      rfl rfl rfl (by decide) (by decide) rfl).2 rfl).2

/-- C3: a leading sign binds tighter than every binary operator: for numeric
literals `a`, `b`, a sign `s` and a binary operator `o`, `parse_expr` on the
tokens of `s a o b` returns `o (s (a), b)`. -/
theorem C3_leading_sign_binds_tighter (F : FloatEnv) (a b : String)
    (va vb : Complex F.D) (s o : String)
    (ha : number_value F a = .ok va) (hb : number_value F b = .ok vb)
    (hs : s ∈ sign_ops) (ho : o ∈ binary_ops) :
    parse_expr F [tk_op s, tk_num a, tk_op o, tk_num b, tk_end]
      = .ok (some (binary_node F o (unary_node F s (value_node F va)) (value_node F vb))) := by
  simp only [binary_ops, sign_ops, List.mem_cons, List.mem_singleton, List.not_mem_nil,
    or_false] at hs ho
  rcases hs with rfl | rfl <;>
  rcases ho with rfl | rfl | rfl | rfl | rfl | rfl <;>
  simp +decide [parse_expr, parse_loop, ha, hb, tk_num, tk_op, tk_end, binary_node, unary_node,
    pop_operators, pops_before, pop_op, drain, precedence, prec, is_left_assoc, func_argc]

/-- C3 at `-2^2` in the integer environment: the tree is `^ (- (2), 2)`. -/
theorem C3_witness :
    parse_expr intEnv [tk_op "-", tk_num "2", tk_op "^", tk_num "2", tk_end]
      = .ok (some (binary_node intEnv "^" (unary_node intEnv "-" (value_node intEnv (int_re 2)))
          (value_node intEnv (int_re 2)))) :=
  C3_leading_sign_binds_tighter intEnv "2" "2" (int_re 2) (int_re 2) "-" "^"
    rfl rfl (by decide) (by decide)

/-! ## Function calls (C4) -/

theorem func_not_const (F : FloatEnv) (f : String) (n : Nat) (hf : func_argc f = some n) :
    parse_const F f = none := by
  unfold parse_const
  by_cases h1 : f = "pi"
  · subst h1; simp [func_argc] at hf
  · by_cases h2 : f = "e"
    · subst h2; simp [func_argc] at hf
    · simp [h1, h2]

theorem func_argc_pos (f : String) (n : Nat) (hf : func_argc f = some n) : 0 < n := by
  unfold func_argc at hf
  split_ifs at hf <;> simp at hf <;> omega

theorem parse_loop_args (F : FloatEnv) (rest : List Token) (ops : List Token) :
    ∀ (as : List String) (vs : List (Complex F.D)),
      List.Forall₂ (fun a v => number_value F a = .ok v) as vs →
      ∀ (a : String) (v : Complex F.D), number_value F a = .ok v →
      ∀ (out : List (Node F)) (eo : Bool),
      parse_loop F (arg_tokens (a :: as) ++ rest) ⟨out, tk_lp :: ops, eo⟩
        = parse_loop F rest
            ⟨((v :: vs).map (value_node F)).reverse ++ out, tk_lp :: ops, false⟩ := by
  intro as vs h
  induction h with
  | nil =>
    intro a v ha out eo
    simp [arg_tokens, parse_loop_number, ha]
  | @cons b w bs ws hb _ ih =>
    intro a v ha out eo
    have step := ih b w hb (value_node F v :: out) true
    simp only [arg_tokens, List.map_cons, List.intersperse_cons_cons, List.cons_append] at step ⊢
    rw [parse_loop_number F a v _ _ ha]
    simp only [parse_loop, tk_comma, pop_to_paren, tk_lp, if_true]
    simp only [tk_lp, tk_comma] at step
    rw [step]
    simp

theorem parse_loop_call_open (F : FloatEnv) (f : String) (n : Nat) (hf : func_argc f = some n)
    (ts : List Token) :
    parse_loop F (tk_id f :: tk_lp :: ts) ⟨[], [], true⟩
      = parse_loop F ts ⟨[], [tk_lp, tk_id f], true⟩ := by
  simp [parse_loop, tk_id, tk_lp, func_not_const F f n hf, is_func, hf]

theorem parse_loop_call_close (F : FloatEnv) (f : String) (n : Nat) (hf : func_argc f = some n)
    (outs : List (Node F)) (eo : Bool) :
    parse_loop F [tk_rp, tk_end] ⟨outs, [tk_lp, tk_id f], eo⟩
      = if outs.length < n then .ok none
        else .ok (some ⟨function_node F f (outs.take n).reverse :: outs.drop n, [], false⟩) := by
  by_cases hlt : outs.length < n
  · simp [parse_loop, tk_rp, tk_end, tk_lp, tk_id, close_paren, is_func, hf, pop_op, hlt]
  · simp [parse_loop, tk_rp, tk_end, tk_lp, tk_id, close_paren, is_func, hf, pop_op, hlt]

/-- C4: for a function `f` of the arity table with declared arity `n` and
numeric literals `a1..ak`, `parse_expr` on the tokens of `f(a1,...,ak)`
returns the Function node of `f` with the children `a1..ak` in that order
when `k = n`, and parse failure when `k ≠ n`. -/
theorem C4_arity_enforced (F : FloatEnv) (f : String) (n : Nat) (hf : func_argc f = some n)
    (as : List String) (vs : List (Complex F.D))
    (h : List.Forall₂ (fun a v => number_value F a = .ok v) as vs) :
    (as.length = n →
      parse_expr F (call_tokens f as)
        = .ok (some (function_node F f (vs.map (value_node F))))) ∧
    (as.length ≠ n → parse_expr F (call_tokens f as) = .ok none) := by
  have hpos := func_argc_pos f n hf
  unfold parse_expr call_tokens
  rw [parse_loop_call_open F f n hf]
  cases h with
  | nil =>
    have h0 : ¬ n = 0 := by omega
    simp [arg_tokens, parse_loop_call_close F f n hf, hpos, Ne.symm h0]
  | @cons a v as1 vs1 ha htl =>
    rw [parse_loop_args F _ _ as1 vs1 htl a v ha, parse_loop_call_close F f n hf,
      List.append_nil]
    have hlen : as1.length = vs1.length := htl.length_eq
    have hrev : ((List.map (value_node F) (v :: vs1)).reverse).reverse
        = List.map (value_node F) (v :: vs1) := List.reverse_reverse _
    have hol : ((List.map (value_node F) (v :: vs1)).reverse).length = as1.length + 1 := by
      simp [hlen]
    generalize (List.map (value_node F) (v :: vs1)).reverse = outs at hrev hol
    simp only [List.length_cons]
    constructor
    · intro hk
      have hnlt : ¬ outs.length < n := by omega
      have e1 : List.take n outs = outs := List.take_of_length_le (by omega)
      have e2 : List.drop n outs = [] := List.drop_of_length_le (by omega)
      rw [if_neg hnlt, e1, e2, hrev]
      simp [drain]
    · intro hk
      by_cases hlt : outs.length < n
      · rw [if_pos hlt]
      · rw [if_neg hlt]
        cases hd : List.drop n outs with
        | nil =>
          have := List.drop_eq_nil_iff.mp hd
          omega
        | cons x xs => simp [drain]

/-- C4 at `log(2,8)` in the integer environment: two arguments, arity 2. -/
theorem C4_witness :
    parse_expr intEnv (call_tokens "log" ["2", "8"])
      = .ok (some (function_node intEnv "log"
          [value_node intEnv (int_re 2), value_node intEnv (int_re 8)])) :=
  (C4_arity_enforced intEnv "log" 2 rfl ["2", "8"] [int_re 2, int_re 8]
    (List.Forall₂.cons rfl (List.Forall₂.cons rfl List.Forall₂.nil))).1 rfl

/-! ## Parentheses (C5) -/

theorem pop_operators_count_left (F : FloatEnv) (op_text : String) :
    ∀ (ops : List Token) (out out1 : List (Node F)) (ops1 : List Token),
      pop_operators F op_text out ops = some (out1, ops1) → count_left ops1 = count_left ops := by
  intro ops
  induction ops with
  | nil =>
    intro out out1 ops1 h
    simp [pop_operators] at h
    rw [← h.2]
  | cons top ops ih =>
    intro out out1 ops1 h
    simp only [pop_operators] at h
    split at h
    · rename_i hp
      cases hpop : pop_op F top out with
      | none => simp [hpop] at h
      | some o =>
        simp only [hpop] at h
        have := ih _ _ _ h
        have hty : top.type = TokenType.Operator := by
          simp [pops_before] at hp; exact hp.1
        simp [count_left, List.countP_cons, hty] at this ⊢
        exact this
    · simp at h
      rw [← h.2]

theorem close_paren_count_left (F : FloatEnv) :
    ∀ (ops : List Token) (out out1 : List (Node F)) (ops1 : List Token),
      close_paren F out ops = some (out1, ops1) → count_left ops = count_left ops1 + 1 := by
  intro ops
  induction ops with
  | nil =>
    intro out out1 ops1 h
    simp [close_paren] at h
  | cons top ops ih =>
    intro out out1 ops1 h
    simp only [close_paren] at h
    split at h
    · rename_i hty
      simp at h
      simp [count_left, List.countP_cons, hty, h.2]
    · rename_i hty
      cases hpop : pop_op F top out with
      | none => simp [hpop] at h
      | some o =>
        simp only [hpop] at h
        have := ih _ _ _ h
        simp [count_left, List.countP_cons, hty] at this ⊢
        exact this

theorem pop_to_paren_count_left (F : FloatEnv) :
    ∀ (ops : List Token) (out out1 : List (Node F)) (ops1 : List Token),
      pop_to_paren F out ops = some (out1, ops1) → count_left ops1 = count_left ops := by
  intro ops
  induction ops with
  | nil =>
    intro out out1 ops1 h
    simp [pop_to_paren] at h
  | cons top ops ih =>
    intro out out1 ops1 h
    simp only [pop_to_paren] at h
    split at h
    · simp at h
      rw [← h.2]
    · rename_i hty
      cases hpop : pop_op F top out with
      | none => simp [hpop] at h
      | some o =>
        simp only [hpop] at h
        have := ih _ _ _ h
        simp [count_left, List.countP_cons, hty] at this ⊢
        exact this

theorem drain_count_left (F : FloatEnv) :
    ∀ (ops : List Token) (out out1 : List (Node F)),
      drain F out ops = some out1 → count_left ops = 0 := by
  intro ops
  induction ops with
  | nil => intro out out1 _; rfl
  | cons top ops ih =>
    intro out out1 h
    simp only [drain] at h
    split at h
    · simp at h
    · rename_i hty
      cases hpop : pop_op F top out with
      | none => simp [hpop] at h
      | some o =>
        simp only [hpop] at h
        have := ih _ _ h
        have hl : ¬ top.type = TokenType.LeftParen := fun e => hty (Or.inl e)
        simp [count_left, List.countP_cons, hl] at this ⊢
        exact this

theorem before_end_cons (t : Token) (ts : List Token) :
    before_end (t :: ts) = if t.type = TokenType.End then [] else t :: before_end ts := by
  by_cases h : t.type = TokenType.End <;> simp [before_end, List.takeWhile_cons, h]

theorem parse_loop_parens (F : FloatEnv) :
    ∀ (ts : List Token) (st st1 : PState F), parse_loop F ts st = .ok (some st1) →
      (∀ n, count_right ((before_end ts).take n)
          ≤ count_left ((before_end ts).take n) + count_left st.ops) ∧
      count_left st1.ops + count_right (before_end ts)
        = count_left st.ops + count_left (before_end ts) := by
  intro ts
  induction ts with
  | nil =>
    intro st st1 h
    simp [parse_loop] at h
    subst h
    simp [before_end, count_left, count_right]
  | cons t ts ih =>
    intro st st1 h
    rcases t with ⟨ty, text⟩
    have key : ∀ (st2 : PState F) (dl dr : Nat), parse_loop F ts st2 = .ok (some st1) →
        ty ≠ TokenType.End →
        dl = (if ty = TokenType.LeftParen then 1 else 0) →
        dr = (if ty = TokenType.RightParen then 1 else 0) →
        count_left st2.ops + dr = count_left st.ops + dl →
        (∀ n, count_right ((before_end (⟨ty, text⟩ :: ts)).take n)
          ≤ count_left ((before_end (⟨ty, text⟩ :: ts)).take n) + count_left st.ops) ∧
        count_left st1.ops + count_right (before_end (⟨ty, text⟩ :: ts))
          = count_left st.ops + count_left (before_end (⟨ty, text⟩ :: ts)) := by
      intro st2 dl dr h2 hne hdl hdr hops
      obtain ⟨ihp, ihe⟩ := ih st2 st1 h2
      rw [before_end_cons]
      simp only [hne, if_false]
      refine ⟨fun n => ?_, ?_⟩
      · cases n with
        | zero => simp [count_left, count_right]
        | succ n =>
          have := ihp n
          simp only [count_left, count_right, List.take_succ_cons, List.countP_cons,
            decide_eq_true_eq] at this hops ⊢
          omega
      · simp only [count_left, count_right, List.countP_cons, decide_eq_true_eq] at ihe hops ⊢
        omega
    cases ty <;> simp only [parse_loop] at h
    case Number =>
      split at h
      · simp at h
      · exact key _ 0 0 h (by decide) (by simp) (by simp) (by simp)
    case Identifier =>
      split at h
      · exact key _ 0 0 h (by decide) (by simp) (by simp) (by simp)
      · split at h
        · exact key _ 0 0 h (by decide) (by simp) (by simp)
            (by simp [count_left, List.countP_cons])
        · simp at h
    case Operator =>
      split at h
      · simp at h
      · rename_i out ops hpo
        have := pop_operators_count_left F _ _ _ _ _ hpo
        exact key _ 0 0 h (by decide) (by simp) (by simp)
          (by simp [count_left, List.countP_cons] at this ⊢; exact this)
    case LeftParen =>
      exact key _ 1 0 h (by decide) (by simp) (by simp)
        (by simp [count_left, List.countP_cons])
    case RightParen =>
      split at h
      · simp at h
      · rename_i out ops hcp
        have hc := close_paren_count_left F _ _ _ _ hcp
        split at h
        · rename_i top ops1
          split at h
          · rename_i hid
            split at h
            · simp at h
            · refine key _ 0 1 h (by decide) (by simp) (by simp) ?_
              simp [count_left, List.countP_cons, hid.1] at hc ⊢
              omega
          · exact key _ 0 1 h (by decide) (by simp) (by simp) (by simp; omega)
        · exact key _ 0 1 h (by decide) (by simp) (by simp) (by simp; omega)
    case Comma =>
      split at h
      · simp at h
      · rename_i out ops hpp
        have := pop_to_paren_count_left F _ _ _ _ hpp
        exact key _ 0 0 h (by decide) (by simp) (by simp) (by simp; omega)
    case End =>
      simp at h
      subst h
      simp [before_end_cons, count_left, count_right]

/-- C5: for every token sequence whose parentheses before the first End token
are not balanced, `parse_expr` returns no tree. -/
theorem C5_unbalanced_parentheses_fail (F : FloatEnv) (tokens : List Token)
    (h : unbalanced (before_end tokens)) (t : Node F) :
    parse_expr F tokens ≠ .ok (some t) := by
  intro hp
  unfold parse_expr at hp
  cases hl : parse_loop F tokens ⟨[], [], true⟩ with
  | error e => simp [hl] at hp
  | ok r =>
    cases r with
    | none => simp [hl] at hp
    | some st =>
      simp only [hl] at hp
      cases hd : drain F st.output st.ops with
      | none => simp [hd] at hp
      | some out =>
        have h0 := drain_count_left F _ _ _ hd
        obtain ⟨hpre, htot⟩ := parse_loop_parens F tokens _ st hl
        simp only [count_left, List.countP_nil, Nat.add_zero, Nat.zero_add] at hpre htot h0
        rcases h with ⟨n, hn⟩ | hne
        · have := hpre n
          simp only [count_left] at hn
          omega
        · apply hne
          simp only [count_left]
          omega

/-- C5 at the tokens of `(1+2`: one left parenthesis, no right one. -/
theorem C5_witness :
    unbalanced (before_end [tk_lp, tk_num "1", tk_op "+", tk_num "2", tk_end]) ∧
    ∀ t, parse_expr intEnv [tk_lp, tk_num "1", tk_op "+", tk_num "2", tk_end] ≠ .ok (some t) :=
  ⟨Or.inr (by decide),
   fun t => C5_unbalanced_parentheses_fail intEnv
     [tk_lp, tk_num "1", tk_op "+", tk_num "2", tk_end] (Or.inr (by decide)) t⟩

/-! ## Unknown identifiers (C6) -/

theorem parse_loop_unknown_identifier (F : FloatEnv) (tok : Token) (post : List Token)
    (hid : tok.type = TokenType.Identifier) (hc : parse_const F tok.text = none)
    (hf : is_func tok.text = false) :
    ∀ (pre : List Token), (∀ x ∈ pre, x.type ≠ TokenType.End) →
      ∀ (st st1 : PState F), parse_loop F (pre ++ tok :: post) st ≠ .ok (some st1) := by
  intro pre
  induction pre with
  | nil =>
    intro _ st st1
    rcases tok with ⟨ty, text⟩
    simp only at hid hc hf
    subst hid
    simp [parse_loop, hc, hf]
  | cons x pre ih =>
    intro hpre st st1 h
    have hx : x.type ≠ TokenType.End := hpre x (List.mem_cons_self _ _)
    have ih2 := ih (fun y hy => hpre y (List.mem_cons_of_mem _ hy))
    rcases x with ⟨ty, text⟩
    simp only [List.cons_append] at h
    cases ty <;> simp only [parse_loop] at h
    case End => exact hx rfl
    all_goals
      repeat' split at h
      all_goals first
        | exact ih2 _ _ h
        | simp at h

theorem punct_type (c : Char) (t : Token) (h : punct c = some t) :
    t.type ≠ TokenType.End := by
  unfold punct at h
  split_ifs at h <;> simp at h <;> subst h <;> simp

theorem lex_loop_no_end :
    ∀ (cs : List Char) (skip : Nat) (tok : Token),
      tok ∈ lex_loop skip cs → tok.type ≠ TokenType.End := by
  intro cs
  induction cs with
  | nil => intro skip tok h; simp [lex_loop] at h
  | cons c cs ih =>
    intro skip tok h
    cases skip with
    | succ k =>
      simp only [lex_loop] at h
      exact ih _ _ h
    | zero =>
      simp only [lex_loop] at h
      split_ifs at h
      · exact ih _ _ h
      · rcases List.mem_cons.mp h with rfl | h
        · simp
        · exact ih _ _ h
      · rcases List.mem_cons.mp h with rfl | h
        · simp
        · exact ih _ _ h
      · cases hp : punct c with
        | none =>
          simp only [hp] at h
          exact ih _ _ h
        | some t =>
          simp only [hp] at h
          rcases List.mem_cons.mp h with rfl | h
          · exact punct_type c _ hp
          · exact ih _ _ h

theorem unknown_name (F : FloatEnv) (text : String) (h : text ∉ known_names) :
    parse_const F text = none ∧ is_func text = false := by
  simp only [known_names, List.mem_cons, List.mem_singleton, List.not_mem_nil, or_false,
    not_or] at h
  obtain ⟨h1, h2, h3, h4, h5, h6, h7, h8, h9, h10⟩ := h
  simp [parse_const, is_func, func_argc, h1, h2, h3, h4, h5, h6, h7, h8, h9, h10]

/-- C6: when the tokens of an input line contain an Identifier token whose
text is neither a constant nor a function name, `parse_expr` on the lexer's
output returns no tree. -/
theorem C6_unknown_identifier_fails (F : FloatEnv) (line : String) (tok : Token)
    (hmem : tok ∈ lexer line) (hid : tok.type = TokenType.Identifier)
    (hunk : tok.text ∉ known_names) (t : Node F) :
    parse_expr F (lexer line) ≠ .ok (some t) := by
  obtain ⟨hc, hf⟩ := unknown_name F tok.text hunk
  have hin : tok ∈ lex_loop 0 line.data := by
    rcases List.mem_append.mp hmem with h | h
    · exact h
    · simp at h
      rw [h] at hid
      simp at hid
  obtain ⟨pre, post, hsplit⟩ := List.append_of_mem hin
  have hpre : ∀ x ∈ pre, x.type ≠ TokenType.End := by
    intro x hx
    apply lex_loop_no_end line.data 0 x
    rw [hsplit]
    exact List.mem_append_left _ hx
  have hloop := parse_loop_unknown_identifier F tok (post ++ [⟨TokenType.End, ""⟩]) hid hc hf
    pre hpre ⟨[], [], true⟩
  intro hp
  unfold parse_expr lexer at hp
  rw [hsplit, List.append_assoc, List.cons_append] at hp
  cases hl : parse_loop F (pre ++ tok :: (post ++ [⟨TokenType.End, ""⟩])) ⟨[], [], true⟩ with
  | error e => simp [hl] at hp
  | ok r =>
    cases r with
    | none => simp [hl] at hp
    | some st => exact hloop st hl

/-- C6 at the line `2*foo`: `foo` is no constant and no function. -/
theorem C6_witness :
    (⟨TokenType.Identifier, "foo"⟩ : Token) ∈ lexer "2*foo" ∧
    ∀ t, parse_expr intEnv (lexer "2*foo") ≠ .ok (some t) :=
  ⟨by decide,
   fun t => C6_unknown_identifier_fails intEnv "2*foo" ⟨TokenType.Identifier, "foo"⟩
     (by decide) rfl (by decide) t⟩

/-! ## Numeric conversion (C7) -/

/-- C7: on the input line `.` the lexer produces the Number token `.`, and the
conversion `std::stod` in `parse_expr` throws `std::invalid_argument`: the
parser returns neither a tree nor a parse failure, in every environment. -/
theorem C7_dot_escapes_as_exception (F : FloatEnv) :
    lexer "." = [tk_num ".", tk_end] ∧
    parse_expr F (lexer ".") = .error Exn.invalid_argument := by
  constructor
  · decide
  · have hl : lexer "." = [tk_num ".", tk_end] := by decide
    rw [hl]
    have hn : number_value F "." = .error Exn.invalid_argument := by
      have hs : strtod_converts "." = false := by decide
      simp [number_value, stod, hs]
    simp [parse_expr, parse_loop, tk_num, hn]

/-! ## Well-formed trees (C8) -/

theorem pop_op_well_formed (F : FloatEnv) (top : Token) (out out1 : List (Node F))
    (hout : output_ok F out) (htop : poppable top) (h : pop_op F top out = some out1) :
    output_ok F out1 := by
  unfold pop_op at h
  cases hfa : func_argc top.text with
  | some argc =>
    simp only [hfa] at h
    split_ifs at h with hlt
    simp only [Option.some.injEq] at h
    subst h
    intro n hn
    rcases List.mem_cons.mp hn with rfl | hn
    · apply WellFormed.function
      · rw [hfa]; simp; omega
      · intro c hc
        exact hout c (List.mem_of_mem_take (List.mem_reverse.mp hc))
    · exact hout n (List.mem_of_mem_drop hn)
  | none =>
    simp only [hfa] at h
    split_ifs at h with hm hp
    · cases out with
      | nil => simp at h
      | cons operand rest =>
        simp only [Option.some.injEq] at h
        subst h
        intro n hn
        rcases List.mem_cons.mp hn with rfl | hn
        · exact WellFormed.unary _ _ _ (by decide) (hout _ (List.mem_cons_self _ _))
        · exact hout n (List.mem_cons_of_mem _ hn)
    · cases out with
      | nil => simp at h
      | cons operand rest =>
        simp only [Option.some.injEq] at h
        subst h
        intro n hn
        rcases List.mem_cons.mp hn with rfl | hn
        · exact WellFormed.unary _ _ _ (by decide) (hout _ (List.mem_cons_self _ _))
        · exact hout n (List.mem_cons_of_mem _ hn)
    · match out, h with
      | r :: l :: rest, h =>
        simp only [Option.some.injEq] at h
        subst h
        have hb : top.text ∈ binary_ops := by
          rcases htop with h1 | h1 | h1 | h1
          · simp [hfa] at h1
          · exact h1
          · exact absurd h1 hp
          · exact absurd h1 hm
        intro n hn
        rcases List.mem_cons.mp hn with rfl | hn
        · exact WellFormed.binary _ _ _ _ hb
            (hout _ (List.mem_cons_of_mem _ (List.mem_cons_self _ _)))
            (hout _ (List.mem_cons_self _ _))
        · exact hout n (List.mem_cons_of_mem _ (List.mem_cons_of_mem _ hn))

theorem ops_ok_tail (top : Token) (ops : List Token) (h : ops_ok (top :: ops)) : ops_ok ops :=
  fun tok htok => h tok (List.mem_cons_of_mem _ htok)

theorem pop_operators_ok (F : FloatEnv) (op_text : String) :
    ∀ (ops : List Token) (out out1 : List (Node F)) (ops1 : List Token),
      output_ok F out → ops_ok ops → pop_operators F op_text out ops = some (out1, ops1) →
      output_ok F out1 ∧ ops_ok ops1 := by
  intro ops
  induction ops with
  | nil =>
    intro out out1 ops1 ho hs h
    simp [pop_operators] at h
    obtain ⟨h1, h2⟩ := h
    subst h1 h2
    exact ⟨ho, hs⟩
  | cons top ops ih =>
    intro out out1 ops1 ho hs h
    simp only [pop_operators] at h
    split at h
    · rename_i hp
      have hty : top.type = TokenType.Operator := by
        simp [pops_before] at hp; exact hp.1
      cases hpop : pop_op F top out with
      | none => simp [hpop] at h
      | some o =>
        simp only [hpop] at h
        have hpp : poppable top := hs top (List.mem_cons_self _ _) (by rw [hty]; decide)
        exact ih _ _ _ (pop_op_well_formed F top out o ho hpp hpop) (ops_ok_tail _ _ hs) h
    · simp at h
      rw [← h.1, ← h.2]
      exact ⟨ho, hs⟩

theorem close_paren_ok (F : FloatEnv) :
    ∀ (ops : List Token) (out out1 : List (Node F)) (ops1 : List Token),
      output_ok F out → ops_ok ops → close_paren F out ops = some (out1, ops1) →
      output_ok F out1 ∧ ops_ok ops1 := by
  intro ops
  induction ops with
  | nil =>
    intro out out1 ops1 _ _ h
    simp [close_paren] at h
  | cons top ops ih =>
    intro out out1 ops1 ho hs h
    simp only [close_paren] at h
    split at h
    · simp at h
      rw [← h.1, ← h.2]
      exact ⟨ho, ops_ok_tail _ _ hs⟩
    · rename_i hty
      cases hpop : pop_op F top out with
      | none => simp [hpop] at h
      | some o =>
        simp only [hpop] at h
        have hpp : poppable top := hs top (List.mem_cons_self _ _) hty
        exact ih _ _ _ (pop_op_well_formed F top out o ho hpp hpop) (ops_ok_tail _ _ hs) h

theorem pop_to_paren_ok (F : FloatEnv) :
    ∀ (ops : List Token) (out out1 : List (Node F)) (ops1 : List Token),
      output_ok F out → ops_ok ops → pop_to_paren F out ops = some (out1, ops1) →
      output_ok F out1 ∧ ops_ok ops1 := by
  intro ops
  induction ops with
  | nil =>
    intro out out1 ops1 _ _ h
    simp [pop_to_paren] at h
  | cons top ops ih =>
    intro out out1 ops1 ho hs h
    simp only [pop_to_paren] at h
    split at h
    · simp at h
      rw [← h.1, ← h.2]
      exact ⟨ho, hs⟩
    · rename_i hty
      cases hpop : pop_op F top out with
      | none => simp [hpop] at h
      | some o =>
        simp only [hpop] at h
        have hpp : poppable top := hs top (List.mem_cons_self _ _) hty
        exact ih _ _ _ (pop_op_well_formed F top out o ho hpp hpop) (ops_ok_tail _ _ hs) h

theorem drain_ok (F : FloatEnv) :
    ∀ (ops : List Token) (out out1 : List (Node F)),
      output_ok F out → ops_ok ops → drain F out ops = some out1 → output_ok F out1 := by
  intro ops
  induction ops with
  | nil =>
    intro out out1 ho _ h
    simp [drain] at h
    rw [← h]
    exact ho
  | cons top ops ih =>
    intro out out1 ho hs h
    simp only [drain] at h
    split at h
    · simp at h
    · rename_i hty
      cases hpop : pop_op F top out with
      | none => simp [hpop] at h
      | some o =>
        simp only [hpop] at h
        have hpp : poppable top :=
          hs top (List.mem_cons_self _ _) (fun e => hty (Or.inl e))
        exact ih _ _ (pop_op_well_formed F top out o ho hpp hpop) (ops_ok_tail _ _ hs) h

theorem output_ok_cons (F : FloatEnv) (n : Node F) (out : List (Node F))
    (hn : WellFormed F n) (ho : output_ok F out) : output_ok F (n :: out) := by
  intro m hm
  rcases List.mem_cons.mp hm with rfl | hm
  · exact hn
  · exact ho m hm

theorem ops_ok_cons (top : Token) (ops : List Token)
    (ht : top.type ≠ TokenType.LeftParen → poppable top) (hs : ops_ok ops) :
    ops_ok (top :: ops) := by
  intro tok htok
  rcases List.mem_cons.mp htok with rfl | htok
  · exact ht
  · exact hs tok htok

theorem parse_loop_ok (F : FloatEnv) :
    ∀ (ts : List Token) (st st1 : PState F), operators_lexical ts →
      output_ok F st.output → ops_ok st.ops → parse_loop F ts st = .ok (some st1) →
      output_ok F st1.output ∧ ops_ok st1.ops := by
  intro ts
  induction ts with
  | nil =>
    intro st st1 _ ho hs h
    simp [parse_loop] at h
    subst h
    exact ⟨ho, hs⟩
  | cons t ts ih =>
    intro st st1 hlex ho hs h
    have hlex1 : operators_lexical ts := fun tok htok => hlex tok (List.mem_cons_of_mem _ htok)
    have ht := hlex t (List.mem_cons_self _ _)
    rcases t with ⟨ty, text⟩
    cases ty <;> simp only [parse_loop] at h
    case Number =>
      split at h
      · simp at h
      · refine ih _ _ hlex1 ?_ ?_ h
        · exact output_ok_cons F _ _ (WellFormed.value _ _) ho
        · exact hs
    case Identifier =>
      split at h
      · refine ih _ _ hlex1 ?_ ?_ h
        · exact output_ok_cons F _ _ (WellFormed.value _ _) ho
        · exact hs
      · split at h
        · rename_i hfun
          refine ih _ _ hlex1 ?_ ?_ h
          · exact ho
          · refine ops_ok_cons _ _ (fun _ => Or.inl ?_) hs
            simpa [is_func] using hfun
        · simp at h
    case Operator =>
      split at h
      · simp at h
      · rename_i out ops hpo
        obtain ⟨ho1, hs1⟩ := pop_operators_ok F _ _ _ _ _ ho hs hpo
        refine ih _ _ hlex1 ?_ ?_ h
        · exact ho1
        · refine ops_ok_cons _ _ (fun _ => ?_) hs1
          show poppable ⟨TokenType.Operator, _⟩
          unfold poppable
          simp only
          split_ifs with hus
          · rcases hus.2 with e | e
            · right; right; right; rw [e]; decide
            · right; right; left; rw [e]; decide
          · exact Or.inr (Or.inl (ht rfl))
    case LeftParen =>
      refine ih _ _ hlex1 ?_ ?_ h
      · exact ho
      · exact ops_ok_cons _ _ (fun hne => absurd rfl hne) hs
    case RightParen =>
      split at h
      · simp at h
      · rename_i out ops hcp
        obtain ⟨ho1, hs1⟩ := close_paren_ok F _ _ _ _ ho hs hcp
        split at h
        · rename_i top ops1
          split at h
          · rename_i hid
            split at h
            · simp at h
            · rename_i out2 hpop
              have hpp : poppable top :=
                hs1 top (List.mem_cons_self _ _) (by rw [hid.1]; decide)
              refine ih _ _ hlex1 ?_ ?_ h
              · exact pop_op_well_formed F top out out2 ho1 hpp hpop
              · exact ops_ok_tail _ _ hs1
          · refine ih _ _ hlex1 ?_ ?_ h
            · exact ho1
            · exact hs1
        · refine ih _ _ hlex1 ?_ ?_ h
          · exact ho1
          · exact hs1
    case Comma =>
      split at h
      · simp at h
      · rename_i out ops hpp
        obtain ⟨ho1, hs1⟩ := pop_to_paren_ok F _ _ _ _ ho hs hpp
        refine ih _ _ hlex1 ?_ ?_ h
        · exact ho1
        · exact hs1
    case End =>
      simp at h
      subst h
      exact ⟨ho, hs⟩

theorem parse_expr_well_formed (F : FloatEnv) (tokens : List Token) (t : Node F)
    (hlex : operators_lexical tokens) (h : parse_expr F tokens = .ok (some t)) :
    WellFormed F t := by
  unfold parse_expr at h
  cases hl : parse_loop F tokens ⟨[], [], true⟩ with
  | error e => simp [hl] at h
  | ok r =>
    cases r with
    | none => simp [hl] at h
    | some st =>
      simp only [hl] at h
      obtain ⟨ho, hs⟩ := parse_loop_ok F tokens _ st hlex
        (fun n hn => absurd hn (List.not_mem_nil n))
        (fun n hn => absurd hn (List.not_mem_nil n)) hl
      cases hd : drain F st.output st.ops with
      | none => simp [hd] at h
      | some out =>
        have hout := drain_ok F _ _ _ ho hs hd
        simp only [hd] at h
        match out, h, hout with
        | [root], h, hout =>
          simp at h
          subst h
          exact hout _ (List.mem_cons_self _ _)

theorem punct_operator (c : Char) (t : Token) (h : punct c = some t)
    (hty : t.type = TokenType.Operator) : t.text ∈ binary_ops := by
  unfold punct at h
  split_ifs at h with h1 h2 h3 h4 <;> simp only [Option.some.injEq] at h <;> subst h
  · rcases h1 with rfl | rfl | rfl | rfl | rfl | rfl <;> decide
  · simp at hty
  · simp at hty
  · simp at hty

theorem lex_loop_operators :
    ∀ (cs : List Char) (skip : Nat) (tok : Token),
      tok ∈ lex_loop skip cs → tok.type = TokenType.Operator → tok.text ∈ binary_ops := by
  intro cs
  induction cs with
  | nil => intro skip tok h; simp [lex_loop] at h
  | cons c cs ih =>
    intro skip tok h
    cases skip with
    | succ k =>
      simp only [lex_loop] at h
      exact ih _ _ h
    | zero =>
      simp only [lex_loop] at h
      split_ifs at h
      · exact ih _ _ h
      · rcases List.mem_cons.mp h with rfl | h
        · simp
        · exact ih _ _ h
      · rcases List.mem_cons.mp h with rfl | h
        · simp
        · exact ih _ _ h
      · cases hp : punct c with
        | none =>
          simp only [hp] at h
          exact ih _ _ h
        | some t =>
          simp only [hp] at h
          rcases List.mem_cons.mp h with rfl | h
          · exact punct_operator c _ hp
          · exact ih _ _ h

theorem lexer_operators_lexical (line : String) : operators_lexical (lexer line) := by
  intro tok htok hty
  rcases List.mem_append.mp htok with h | h
  · exact lex_loop_operators _ _ _ h hty
  · simp at h
    rw [h] at hty
    simp at hty

/-- C8 as stated fails: the Operator token of text `x` between two numbers
gives the tree `x (1, 2)`, a BinaryOp node whose operator is none of the six. -/
theorem C8_counterexample :
    parse_expr intEnv [tk_num "1", tk_op "x", tk_num "2", tk_end]
      = .ok (some (binary_node intEnv "x" (value_node intEnv (int_re 1))
          (value_node intEnv (int_re 2)))) ∧
    ¬ WellFormed intEnv (binary_node intEnv "x" (value_node intEnv (int_re 1))
          (value_node intEnv (int_re 2))) := by
  refine ⟨rfl, ?_⟩
  intro h
  unfold binary_node at h
  cases h with
  | binary _ _ _ _ hop _ _ => exact absurd hop (by decide)

/-- C8, amended: for every token sequence whose Operator tokens carry one of
the six operator symbols, every tree `parse_expr` returns is well-formed at
every node. -/
theorem C8_trees_well_formed (F : FloatEnv) (tokens : List Token) (t : Node F)
    (hlex : operators_lexical tokens) (h : parse_expr F tokens = .ok (some t)) :
    WellFormed F t :=
  parse_expr_well_formed F tokens t hlex h

/-- C8 on the line `2+3*4` in the integer environment: the Operator tokens of
the lexer are among the six symbols and the tree of the line is well-formed. -/
theorem C8_witness :
    operators_lexical (lexer "2+3*4") ∧
    parse_expr intEnv (lexer "2+3*4")
      = .ok (some (binary_node intEnv "+" (value_node intEnv (int_re 2))
          (binary_node intEnv "*" (value_node intEnv (int_re 3))
            (value_node intEnv (int_re 4))))) ∧
    WellFormed intEnv (binary_node intEnv "+" (value_node intEnv (int_re 2))
      (binary_node intEnv "*" (value_node intEnv (int_re 3)) (value_node intEnv (int_re 4)))) :=
  ⟨lexer_operators_lexical "2+3*4", rfl,
   C8_trees_well_formed intEnv (lexer "2+3*4") _ (lexer_operators_lexical "2+3*4") rfl⟩

/-! ## Evaluation of well-formed trees (C9, C10) -/

theorem call_func_total (F : FloatEnv) (f : String) (args : List (Complex F.D))
    (h : func_argc f = some args.length) : ∃ v, call_func F f args = .ok (some v) := by
  unfold func_argc at h
  split_ifs at h with h1 h2 h3 h4 h5 h6 h7 h8 <;> simp only [Option.some.injEq] at h
  case pos | pos | pos | pos | pos | pos =>
    obtain ⟨a, rfl⟩ := List.length_eq_one.mp h.symm
    subst_vars
    simp +decide [call_func, arg_at, Except.map]
  case pos | pos =>
    obtain ⟨a, b, rfl⟩ := List.length_eq_two.mp h.symm
    subst_vars
    simp +decide [call_func, arg_at, Except.map, Except.bind]

theorem eval_expr_value (F : FloatEnv) (op : String) (cs : List (Node F))
    (val : Option (Complex F.D)) :
    eval_expr F (ExprNode.mk NodeType.Value op cs val) = .ok val := by
  rw [eval_expr]

theorem eval_expr_binary (F : FloatEnv) (op : String) (l r : Node F)
    (val : Option (Complex F.D)) (a b : Complex F.D)
    (hl : eval_expr F l = .ok (some a)) (hr : eval_expr F r = .ok (some b)) :
    eval_expr F (ExprNode.mk NodeType.BinaryOp op [l, r] val) = .ok (bin_op F op a b) := by
  rw [eval_expr]
  simp only [hl, hr]

theorem eval_expr_binary_left (F : FloatEnv) (op : String) (l r : Node F)
    (val : Option (Complex F.D)) (rv : OptValue F)
    (hl : eval_expr F l = .ok none) (hr : eval_expr F r = .ok rv) :
    eval_expr F (ExprNode.mk NodeType.BinaryOp op [l, r] val) = .ok none := by
  rw [eval_expr]
  simp only [hl, hr]

theorem eval_expr_binary_right (F : FloatEnv) (op : String) (l r : Node F)
    (val : Option (Complex F.D)) (lv : OptValue F)
    (hl : eval_expr F l = .ok lv) (hr : eval_expr F r = .ok none) :
    eval_expr F (ExprNode.mk NodeType.BinaryOp op [l, r] val) = .ok none := by
  rw [eval_expr]
  cases lv <;> simp only [hl, hr]

theorem eval_expr_unary_none (F : FloatEnv) (op : String) (c : Node F)
    (val : Option (Complex F.D)) (hc : eval_expr F c = .ok none) :
    eval_expr F (ExprNode.mk NodeType.UnaryOp op [c] val) = .ok none := by
  rw [eval_expr]
  simp only [hc]

theorem eval_expr_unary (F : FloatEnv) (op : String) (c : Node F)
    (val : Option (Complex F.D)) (v : Complex F.D) (hc : eval_expr F c = .ok (some v)) :
    eval_expr F (ExprNode.mk NodeType.UnaryOp op [c] val)
      = if op = "-" then .ok (some ⟨F.neg v.re, F.neg v.im⟩)
        else if op = "+" then .ok (some v)
        else .ok none := by
  rw [eval_expr]
  simp only [hc]

theorem eval_expr_function (F : FloatEnv) (f : String) (cs : List (Node F))
    (val : Option (Complex F.D)) :
    eval_expr F (ExprNode.mk NodeType.Function f cs val)
      = match eval_expr.eval_args F cs with
        | .error e => .error e
        | .ok none => .ok none
        | .ok (some args) => call_func F f args := by
  rw [eval_expr]

theorem eval_args_none (F : FloatEnv) :
    ∀ (cs : List (Node F)), (∀ c ∈ cs, ∃ r, eval_expr F c = .ok r) →
      (∃ c ∈ cs, eval_expr F c = .ok none) → eval_expr.eval_args F cs = .ok none := by
  intro cs
  induction cs with
  | nil => intro _ h; simp at h
  | cons c cs ih =>
    intro hall hex
    obtain ⟨r, hr⟩ := hall c (List.mem_cons_self _ _)
    cases r with
    | none => simp [eval_expr.eval_args, hr]
    | some v =>
      have hex1 : ∃ d ∈ cs, eval_expr F d = .ok none := by
        obtain ⟨d, hd, hdn⟩ := hex
        rcases List.mem_cons.mp hd with rfl | hd
        · rw [hr] at hdn; simp at hdn
        · exact ⟨d, hd, hdn⟩
      have := ih (fun d hd => hall d (List.mem_cons_of_mem _ hd)) hex1
      simp [eval_expr.eval_args, hr, this]

theorem eval_args_ok (F : FloatEnv) :
    ∀ (cs : List (Node F)), (∀ c ∈ cs, ∃ r, eval_expr F c = .ok r) →
      (∃ vs, eval_expr.eval_args F cs = .ok (some vs) ∧ vs.length = cs.length) ∨
      (eval_expr.eval_args F cs = .ok none ∧ ∃ c ∈ cs, eval_expr F c = .ok none) := by
  intro cs
  induction cs with
  | nil => intro _; left; exact ⟨[], by simp [eval_expr.eval_args]⟩
  | cons c cs ih =>
    intro hall
    obtain ⟨r, hr⟩ := hall c (List.mem_cons_self _ _)
    cases r with
    | none =>
      right
      exact ⟨by simp [eval_expr.eval_args, hr], c, List.mem_cons_self _ _, hr⟩
    | some v =>
      rcases ih (fun d hd => hall d (List.mem_cons_of_mem _ hd)) with ⟨vs, hvs, hlen⟩ | ⟨hn, d, hd, hdn⟩
      · left
        exact ⟨v :: vs, by simp [eval_expr.eval_args, hr, hvs], by simp [hlen]⟩
      · right
        exact ⟨by simp [eval_expr.eval_args, hr, hn], d, List.mem_cons_of_mem _ hd, hdn⟩

theorem well_shaped_eval_ok (F : FloatEnv) (t : Node F) (h : WellShaped F t) :
    ∃ r, eval_expr F t = .ok r := by
  induction h with
  | value op val => exact ⟨val, eval_expr_value F _ _ _⟩
  | binary op l r val _ _ ihl ihr =>
    obtain ⟨lv, hl⟩ := ihl
    obtain ⟨rv, hr⟩ := ihr
    cases lv with
    | none => exact ⟨none, eval_expr_binary_left F op l r val rv hl hr⟩
    | some a =>
      cases rv with
      | none => exact ⟨none, eval_expr_binary_right F op l r val _ hl hr⟩
      | some b => exact ⟨_, eval_expr_binary F op l r val a b hl hr⟩
  | unary op c val _ ih =>
    obtain ⟨cv, hc⟩ := ih
    cases cv with
    | none => exact ⟨none, eval_expr_unary_none F op c val hc⟩
    | some v =>
      rw [eval_expr_unary F op c val v hc]
      split_ifs
      · exact ⟨_, rfl⟩
      · exact ⟨_, rfl⟩
      · exact ⟨_, rfl⟩
  | function f args val hf _ ih =>
    rw [eval_expr_function]
    rcases eval_args_ok F args ih with ⟨vs, hvs, hlen⟩ | ⟨hn, _⟩
    · rw [hvs]
      obtain ⟨v, hv⟩ := call_func_total F f vs (by rw [hlen]; exact hf)
      exact ⟨some v, hv⟩
    · rw [hn]
      exact ⟨none, rfl⟩

theorem well_formed_shaped (F : FloatEnv) (t : Node F) (h : WellFormed F t) :
    WellShaped F t := by
  induction h with
  | value op v => exact WellShaped.value _ _
  | binary op l r val _ _ _ ihl ihr => exact WellShaped.binary _ _ _ _ ihl ihr
  | unary op c val _ _ ih => exact WellShaped.unary _ _ _ ih
  | function f args val hf _ ih => exact WellShaped.function _ _ _ hf ih

theorem well_formed_eval (F : FloatEnv) (t : Node F) (h : WellFormed F t) :
    (∃ v, eval_expr F t = .ok (some v)) ∨
    (eval_expr F t = .ok none ∧ ∃ s, Subtree F s t ∧ documented_failure F s) := by
  induction h with
  | value op v => exact Or.inl ⟨v, eval_expr_value F _ _ _⟩
  | binary op l r val hop hwl hwr ihl ihr =>
    obtain ⟨lv, hlv⟩ := well_shaped_eval_ok F l (well_formed_shaped F l hwl)
    obtain ⟨rv, hrv⟩ := well_shaped_eval_ok F r (well_formed_shaped F r hwr)
    rcases ihl with ⟨a, hl⟩ | ⟨hl, s, hs, hd⟩
    · rcases ihr with ⟨b, hr⟩ | ⟨hr, s, hs, hd⟩
      · have hev := eval_expr_binary F op l r val a b hl hr
        simp only [binary_ops, List.mem_cons, List.mem_singleton, List.not_mem_nil,
          or_false] at hop
        rcases hop with rfl | rfl | rfl | rfl | rfl | rfl
        · exact Or.inl ⟨F.add a b, by rw [hev]; simp [bin_op]⟩
        · exact Or.inl ⟨F.sub a b, by rw [hev]; simp +decide [bin_op]⟩
        · exact Or.inl ⟨F.mul a b, by rw [hev]; simp +decide [bin_op]⟩
        · by_cases hz : is_zero F b = true
          · right
            refine ⟨by rw [hev]; simp +decide [bin_op, hz], _, Subtree.refl, rfl, Or.inr ⟨rfl, r, b, rfl, hr, hz⟩⟩
          · exact Or.inl ⟨F.div a b, by rw [hev]; simp +decide [bin_op, hz]⟩
        · right
          exact ⟨by rw [hev]; simp +decide [bin_op], _, Subtree.refl, rfl, Or.inl rfl⟩
        · exact Or.inl ⟨F.pow a b, by rw [hev]; simp +decide [bin_op]⟩
      · right
        exact ⟨eval_expr_binary_right F op l r val _ hlv hr, s,
          Subtree.child r _ _ _ _ (by simp) hs, hd⟩
    · right
      exact ⟨eval_expr_binary_left F op l r val _ hl hrv, s,
        Subtree.child l _ _ _ _ (by simp) hs, hd⟩
  | unary op c val hop _ ih =>
    rcases ih with ⟨v, hc⟩ | ⟨hc, s, hs, hd⟩
    · left
      rw [eval_expr_unary F op c val v hc]
      simp only [sign_ops, List.mem_cons, List.mem_singleton, List.not_mem_nil,
        or_false] at hop
      rcases hop with rfl | rfl
      · exact ⟨v, by simp +decide⟩
      · exact ⟨⟨F.neg v.re, F.neg v.im⟩, by simp⟩
    · right
      exact ⟨eval_expr_unary_none F op c val hc, s, Subtree.child c _ _ _ _ (by simp) hs, hd⟩
  | function f args val hf hall ih =>
    rw [eval_expr_function]
    have hok : ∀ c ∈ args, ∃ r, eval_expr F c = .ok r :=
      fun c hc => well_shaped_eval_ok F c (well_formed_shaped F c (hall c hc))
    rcases eval_args_ok F args hok with ⟨vs, hvs, hlen⟩ | ⟨hn, c, hc, hcn⟩
    · left
      rw [hvs]
      exact call_func_total F f vs (by rw [hlen]; exact hf)
    · right
      rw [hn]
      refine ⟨rfl, ?_⟩
      rcases ih c hc with ⟨v, hv⟩ | ⟨_, s, hs, hd⟩
      · rw [hv] at hcn
        simp at hcn
      · exact ⟨s, Subtree.child c _ _ _ _ hc hs, hd⟩

/-- C9 as stated fails: `parse_expr` returns the tree `x (1, 2)` for an
Operator token of text `x`; `eval_expr` fails on it, and the tree has neither
a `%` node nor a `/` node. -/
theorem C9_counterexample :
    parse_expr intEnv [tk_num "1", tk_op "x", tk_num "2", tk_end]
      = .ok (some (binary_node intEnv "x" (value_node intEnv (int_re 1))
          (value_node intEnv (int_re 2)))) ∧
    eval_expr intEnv (binary_node intEnv "x" (value_node intEnv (int_re 1))
          (value_node intEnv (int_re 2))) = .ok none ∧
    ¬ ∃ s, Subtree intEnv s (binary_node intEnv "x" (value_node intEnv (int_re 1))
          (value_node intEnv (int_re 2))) ∧ documented_failure intEnv s := by
  refine ⟨rfl, rfl, ?_⟩
  rintro ⟨s, hs, hty, hd⟩
  unfold binary_node value_node at hs
  cases hs with
  | refl =>
    rcases hd with hd | ⟨hd, _⟩
    · exact absurd hd (by decide)
    · exact absurd hd (by decide)
  | child c _ _ _ _ hmem hsub =>
    simp only [List.mem_cons, List.mem_singleton, List.not_mem_nil, or_false] at hmem
    rcases hmem with rfl | rfl
    · cases hsub with
      | refl => exact absurd hty (by decide)
      | child d _ _ _ _ hmem2 _ => simp at hmem2
    · cases hsub with
      | refl => exact absurd hty (by decide)
      | child d _ _ _ _ hmem2 _ => simp at hmem2

/-- C9, amended: for every token sequence whose Operator tokens carry one of
the six operator symbols and every tree `parse_expr` returns for it,
`eval_expr` reads no missing child or argument and either returns a value, or
fails and the tree contains a BinaryOp node with operator `%` or a BinaryOp
node with operator `/` whose right child evaluates to `Complex (0,0)`. -/
theorem C9_evaluator_total_on_parser_output (F : FloatEnv) (tokens : List Token) (t : Node F)
    (hlex : operators_lexical tokens) (h : parse_expr F tokens = .ok (some t)) :
    (∃ v, eval_expr F t = .ok (some v)) ∨
    (eval_expr F t = .ok none ∧ ∃ s, Subtree F s t ∧ documented_failure F s) :=
  well_formed_eval F t (parse_expr_well_formed F tokens t hlex h)

/-- C9 on the line `1/0` in the integer environment: the evaluation fails and
the root is a `/` node whose right child evaluates to zero. -/
theorem C9_witness :
    operators_lexical (lexer "1/0") ∧
    parse_expr intEnv (lexer "1/0")
      = .ok (some (binary_node intEnv "/" (value_node intEnv (int_re 1))
          (value_node intEnv (int_re 0)))) ∧
    ((∃ v, eval_expr intEnv (binary_node intEnv "/" (value_node intEnv (int_re 1))
          (value_node intEnv (int_re 0))) = .ok (some v)) ∨
     (eval_expr intEnv (binary_node intEnv "/" (value_node intEnv (int_re 1))
          (value_node intEnv (int_re 0))) = .ok none ∧
      ∃ s, Subtree intEnv s (binary_node intEnv "/" (value_node intEnv (int_re 1))
          (value_node intEnv (int_re 0))) ∧ documented_failure intEnv s)) :=
  ⟨lexer_operators_lexical "1/0", rfl,
   C9_evaluator_total_on_parser_output intEnv (lexer "1/0") _
     (lexer_operators_lexical "1/0") rfl⟩

/-- C10: in a well-formed tree (a BinaryOp node has two children, a UnaryOp
node one, a Function node the number its function declares, a Value node
none), a failure of `eval_expr` on any node is a failure of `eval_expr` on the
whole tree. -/
theorem C10_failure_propagates_to_root (F : FloatEnv) (s t : Node F)
    (hshape : WellShaped F t) (hsub : Subtree F s t) (hfail : eval_expr F s = .ok none) :
    eval_expr F t = .ok none := by
  revert hshape hfail
  induction hsub with
  | refl => intro _ h; exact h
  | child c type op children val hmem _ ih =>
    intro hshape hs
    cases hshape with
    | value => simp at hmem
    | binary _ l r _ hl hr =>
      obtain ⟨lv, hlv⟩ := well_shaped_eval_ok F l hl
      obtain ⟨rv, hrv⟩ := well_shaped_eval_ok F r hr
      simp only [List.mem_cons, List.mem_singleton, List.not_mem_nil, or_false] at hmem
      rcases hmem with rfl | rfl
      · exact eval_expr_binary_left F op c r val rv (ih hl hs) hrv
      · exact eval_expr_binary_right F op l c val lv hlv (ih hr hs)
    | unary _ operand _ hc =>
      simp only [List.mem_singleton] at hmem
      subst hmem
      exact eval_expr_unary_none F op c val (ih hc hs)
    | function _ _ _ hf hall =>
      rw [eval_expr_function]
      rw [eval_args_none F children (fun d hd => well_shaped_eval_ok F d (hall d hd))
        ⟨c, hmem, ih (hall c hmem) hs⟩]

/-- C10 on the tree of `5%2+3` in the integer environment: the `%` node fails,
and so does the whole tree. -/
theorem C10_witness :
    WellShaped intEnv (binary_node intEnv "+"
      (binary_node intEnv "%" (value_node intEnv (int_re 5)) (value_node intEnv (int_re 2)))
      (value_node intEnv (int_re 3))) ∧
    eval_expr intEnv
      (binary_node intEnv "%" (value_node intEnv (int_re 5)) (value_node intEnv (int_re 2)))
      = .ok none ∧
    eval_expr intEnv (binary_node intEnv "+"
      (binary_node intEnv "%" (value_node intEnv (int_re 5)) (value_node intEnv (int_re 2)))
      (value_node intEnv (int_re 3))) = .ok none :=
  have hshape : WellShaped intEnv (binary_node intEnv "+"
      (binary_node intEnv "%" (value_node intEnv (int_re 5)) (value_node intEnv (int_re 2)))
      (value_node intEnv (int_re 3))) :=
    WellShaped.binary _ _ _ _
      (WellShaped.binary _ _ _ _ (WellShaped.value _ _) (WellShaped.value _ _))
      (WellShaped.value _ _)
  ⟨hshape, rfl,
   C10_failure_propagates_to_root intEnv _ _ hshape
     (Subtree.child _ _ _ _ _ (List.mem_cons_self _ _) Subtree.refl) rfl⟩

/-! ## Modulo and division (C11, C12) -/

theorem subtree_well_shaped (F : FloatEnv) (s t : Node F) (hsub : Subtree F s t) :
    WellShaped F t → WellShaped F s := by
  induction hsub with
  | refl => exact id
  | child c type op children val hmem _ ih =>
    intro hshape
    cases hshape with
    | value => simp at hmem
    | binary _ l r _ hl hr =>
      simp only [List.mem_cons, List.mem_singleton, List.not_mem_nil, or_false] at hmem
      rcases hmem with rfl | rfl
      · exact ih hl
      · exact ih hr
    | unary _ operand _ hc =>
      simp only [List.mem_singleton] at hmem
      subst hmem
      exact ih hc
    | function _ _ _ _ hall => exact ih (hall c hmem)

theorem failing_node_fails_tree (F : FloatEnv) (s t : Node F) (hsub : Subtree F s t) :
    WellShaped F t → eval_expr F s = .ok none → eval_expr F t = .ok none := by
  induction hsub with
  | refl => intro _ h; exact h
  | child c type op children val hmem _ ih =>
    intro hshape hs
    cases hshape with
    | value => simp at hmem
    | binary _ l r _ hl hr =>
      obtain ⟨lv, hlv⟩ := well_shaped_eval_ok F l hl
      obtain ⟨rv, hrv⟩ := well_shaped_eval_ok F r hr
      simp only [List.mem_cons, List.mem_singleton, List.not_mem_nil, or_false] at hmem
      rcases hmem with rfl | rfl
      · exact eval_expr_binary_left F op c r val rv (ih hl hs) hrv
      · exact eval_expr_binary_right F op l c val lv hlv (ih hr hs)
    | unary _ operand _ hc =>
      simp only [List.mem_singleton] at hmem
      subst hmem
      exact eval_expr_unary_none F op c val (ih hc hs)
    | function _ _ _ hf hall =>
      rw [eval_expr_function]
      rw [eval_args_none F children (fun d hd => well_shaped_eval_ok F d (hall d hd))
        ⟨c, hmem, ih (hall c hmem) hs⟩]

theorem modulo_node_fails (F : FloatEnv) (s : Node F) (hshape : WellShaped F s)
    (hty : s.type = NodeType.BinaryOp) (hop : s.op = "%") : eval_expr F s = .ok none := by
  cases hshape with
  | value => simp [ExprNode.type] at hty
  | unary => simp [ExprNode.type] at hty
  | function => simp [ExprNode.type] at hty
  | binary op l r val hl hr =>
    simp only [ExprNode.op] at hop
    subst hop
    obtain ⟨lv, hlv⟩ := well_shaped_eval_ok F l hl
    obtain ⟨rv, hrv⟩ := well_shaped_eval_ok F r hr
    cases lv with
    | none => exact eval_expr_binary_left F _ l r val rv hlv hrv
    | some a =>
      cases rv with
      | none => exact eval_expr_binary_right F _ l r val _ hlv hrv
      | some b =>
        rw [eval_expr_binary F _ l r val a b hlv hrv]
        simp +decide [bin_op]

/-- C11: a well-formed tree that contains a BinaryOp node with operator `%`
evaluates to failure, whatever the operands of that node are; and for numeric
literals `a` and `b` the tokens of `a%b` parse to the `%` node of the two
values, whose evaluation fails. -/
theorem C11_modulo_always_fails (F : FloatEnv) :
    (∀ (s t : Node F), WellShaped F t → Subtree F s t →
      s.type = NodeType.BinaryOp → s.op = "%" → eval_expr F t = .ok none) ∧
    (∀ (a b : String) (va vb : Complex F.D),
      number_value F a = .ok va → number_value F b = .ok vb →
      parse_expr F [tk_num a, tk_op "%", tk_num b, tk_end]
        = .ok (some (binary_node F "%" (value_node F va) (value_node F vb))) ∧
      eval_expr F (binary_node F "%" (value_node F va) (value_node F vb)) = .ok none) := by
  constructor
  · intro s t hshape hsub hty hop
    exact failing_node_fails_tree F s t hsub hshape
      (modulo_node_fails F s (subtree_well_shaped F s t hsub hshape) hty hop)
  · intro a b va vb ha hb
    constructor
    · simp +decide [parse_expr, parse_loop, ha, hb, tk_num, tk_op, tk_end, binary_node,
        pop_operators, pops_before, pop_op, drain, precedence, prec, is_left_assoc, func_argc]
    · exact modulo_node_fails F _
        (WellShaped.binary _ _ _ _ (WellShaped.value _ _) (WellShaped.value _ _)) rfl rfl

/-- C11 on `5%2` in the integer environment: the tokens parse to the `%` node
and the evaluation fails. -/
theorem C11_witness :
    parse_expr intEnv [tk_num "5", tk_op "%", tk_num "2", tk_end]
      = .ok (some (binary_node intEnv "%" (value_node intEnv (int_re 5))
          (value_node intEnv (int_re 2)))) ∧
    eval_expr intEnv (binary_node intEnv "%" (value_node intEnv (int_re 5))
          (value_node intEnv (int_re 2))) = .ok none :=
  (C11_modulo_always_fails intEnv).2 "5" "2" (int_re 5) (int_re 2) rfl rfl

/-- C12: a BinaryOp node with operator `/` whose children evaluate to `l` and
`r` evaluates to failure when `r` compares equal to `Complex (0,0)`, and to
the quotient `l / r` otherwise. -/
theorem C12_division_by_zero (F : FloatEnv) (cl cr : Node F) (val : Option (Complex F.D))
    (l r : Complex F.D)
    (hl : eval_expr F cl = .ok (some l)) (hr : eval_expr F cr = .ok (some r)) :
    (is_zero F r = true →
      eval_expr F (ExprNode.mk NodeType.BinaryOp "/" [cl, cr] val) = .ok none) ∧
    (is_zero F r = false →
      eval_expr F (ExprNode.mk NodeType.BinaryOp "/" [cl, cr] val)
        = .ok (some (F.div l r))) := by
  rw [eval_expr_binary F "/" cl cr val l r hl hr]
  constructor
  · intro hz
    simp +decide [bin_op, hz]
  · intro hz
    simp +decide [bin_op, hz]

/-- C12 on `6/3` and `1/0` in the integer environment. -/
theorem C12_witness :
    eval_expr intEnv (binary_node intEnv "/" (value_node intEnv (int_re 6))
        (value_node intEnv (int_re 3))) = .ok (some (int_re 2)) ∧
    eval_expr intEnv (binary_node intEnv "/" (value_node intEnv (int_re 1))
        (value_node intEnv (int_re 0))) = .ok none :=
  ⟨(C12_division_by_zero intEnv (value_node intEnv (int_re 6)) (value_node intEnv (int_re 3))
      none (int_re 6) (int_re 3) rfl rfl).2 rfl,
   (C12_division_by_zero intEnv (value_node intEnv (int_re 1)) (value_node intEnv (int_re 0))
      none (int_re 1) (int_re 0) rfl rfl).1 rfl⟩

/-! ## Built-in functions (C13, C14, C20) -/

theorem eval_value_node (F : FloatEnv) (v : Complex F.D) :
    eval_expr F (value_node F v) = .ok (some v) :=
  eval_expr_value F _ _ _

theorem eval_expr_call_one (F : FloatEnv) (f : String) (c : Node F)
    (val : Option (Complex F.D)) (z : Complex F.D) (hc : eval_expr F c = .ok (some z)) :
    eval_expr F (ExprNode.mk NodeType.Function f [c] val) = call_func F f [z] := by
  rw [eval_expr_function]
  simp [eval_expr.eval_args, hc]

theorem eval_expr_call_two (F : FloatEnv) (f : String) (c0 c1 : Node F)
    (val : Option (Complex F.D)) (z0 z1 : Complex F.D)
    (h0 : eval_expr F c0 = .ok (some z0)) (h1 : eval_expr F c1 = .ok (some z1)) :
    eval_expr F (ExprNode.mk NodeType.Function f [c0, c1] val) = call_func F f [z0, z1] := by
  rw [eval_expr_function]
  simp [eval_expr.eval_args, h0, h1]

/-- C13: a call of `cot`, `sec` or `csc` on an argument that evaluates to `z`
never evaluates to failure: the result is the quotient of `1.0` and the
trigonometric value as the complex division gives it, also when that value
compares equal to `Complex (0,0)`.  For a numeric literal `a` the tokens of
`cot(a)` parse to such a call. -/
theorem C13_reciprocal_functions_unguarded (F : FloatEnv) :
    (∀ (c : Node F) (val : Option (Complex F.D)) (z : Complex F.D),
      eval_expr F c = .ok (some z) →
      eval_expr F (ExprNode.mk NodeType.Function "cot" [c] val)
        = .ok (some (F.div (c_one F) (F.tan z))) ∧
      eval_expr F (ExprNode.mk NodeType.Function "sec" [c] val)
        = .ok (some (F.div (c_one F) (F.cos z))) ∧
      eval_expr F (ExprNode.mk NodeType.Function "csc" [c] val)
        = .ok (some (F.div (c_one F) (F.sin z)))) ∧
    (∀ (a : String) (va : Complex F.D), number_value F a = .ok va →
      parse_expr F (call_tokens "cot" [a])
        = .ok (some (function_node F "cot" [value_node F va]))) := by
  constructor
  · intro c val z hc
    refine ⟨?_, ?_, ?_⟩
    · rw [eval_expr_call_one F _ c val z hc]
      simp +decide [call_func, arg_at, Except.map]
    · rw [eval_expr_call_one F _ c val z hc]
      simp +decide [call_func, arg_at, Except.map]
    · rw [eval_expr_call_one F _ c val z hc]
      simp +decide [call_func, arg_at, Except.map]
  · intro a va ha
    simp +decide [call_tokens, arg_tokens, parse_expr, parse_loop, ha, tk_num, tk_id, tk_lp,
      tk_rp, tk_end, parse_const, is_func, func_argc, close_paren, pop_op, drain,
      function_node]

/-- C13 on the line `cot(0)` in the integer environment: the tangent of the
argument compares equal to zero and the evaluation returns a value. -/
theorem C13_cot_zero_returns_value :
    parse_expr intEnv (lexer "cot(0)")
      = .ok (some (function_node intEnv "cot" [value_node intEnv (int_re 0)])) ∧
    is_zero intEnv (intEnv.tan (int_re 0)) = true ∧
    eval_expr intEnv (function_node intEnv "cot" [value_node intEnv (int_re 0)])
      = .ok (some (intEnv.div (c_one intEnv) (intEnv.tan (int_re 0)))) :=
  ⟨rfl, rfl, rfl⟩

/-- C14: for numeric literals `A` and `B` with values `a` and `b`, the tokens
of `log(A,B)` parse to a tree that evaluates to `log b / log a`, and the
tokens of `rt(A,B)` to a tree that evaluates to `pow (b, 1.0 / a)`. -/
theorem C14_base_first_value_second (F : FloatEnv) (A B : String) (a b : Complex F.D)
    (hA : number_value F A = .ok a) (hB : number_value F B = .ok b) :
    (parse_expr F (call_tokens "log" [A, B])
        = .ok (some (function_node F "log" [value_node F a, value_node F b])) ∧
      eval_expr F (function_node F "log" [value_node F a, value_node F b])
        = .ok (some (F.div (F.log b) (F.log a)))) ∧
    (parse_expr F (call_tokens "rt" [A, B])
        = .ok (some (function_node F "rt" [value_node F a, value_node F b])) ∧
      eval_expr F (function_node F "rt" [value_node F a, value_node F b])
        = .ok (some (F.pow b (F.div (c_one F) a)))) := by
  refine ⟨⟨?_, ?_⟩, ⟨?_, ?_⟩⟩
  · simp +decide [call_tokens, arg_tokens, parse_expr, parse_loop, hA, hB, tk_num, tk_id,
      tk_lp, tk_rp, tk_end, tk_comma, parse_const, is_func, func_argc, close_paren,
      pop_to_paren, pop_op, drain, function_node]
  · rw [function_node, eval_expr_call_two F _ _ _ none a b
      (eval_value_node F a) (eval_value_node F b)]
    simp +decide [call_func, arg_at, Except.map, Except.bind]
  · simp +decide [call_tokens, arg_tokens, parse_expr, parse_loop, hA, hB, tk_num, tk_id,
      tk_lp, tk_rp, tk_end, tk_comma, parse_const, is_func, func_argc, close_paren,
      pop_to_paren, pop_op, drain, function_node]
  · rw [function_node, eval_expr_call_two F _ _ _ none a b
      (eval_value_node F a) (eval_value_node F b)]
    simp +decide [call_func, arg_at, Except.map, Except.bind]

/-- C14 on `log(2,8)` in the integer environment, where `log` is the identity
map and the quotient is that of the integers: `8 / 2`. -/
theorem C14_witness :
    parse_expr intEnv (call_tokens "log" ["2", "8"])
      = .ok (some (function_node intEnv "log"
          [value_node intEnv (int_re 2), value_node intEnv (int_re 8)])) ∧
    eval_expr intEnv (function_node intEnv "log"
          [value_node intEnv (int_re 2), value_node intEnv (int_re 8)])
      = .ok (some (int_re 4)) :=
  (C14_base_first_value_second intEnv "2" "8" (int_re 2) (int_re 8) rfl rfl).1

/-- C20: for numeric literals `a` and `b`, the tokens of `a log(b)` parse to
the Function node `log` with the children `a`, `b` in that order, although
only one argument stands between the parentheses. -/
theorem C20_argument_taken_from_before_the_name (F : FloatEnv) (a b : String)
    (va vb : Complex F.D)
    (ha : number_value F a = .ok va) (hb : number_value F b = .ok vb) :
    parse_expr F [tk_num a, tk_id "log", tk_lp, tk_num b, tk_rp, tk_end]
      = .ok (some (function_node F "log" [value_node F va, value_node F vb])) := by
  simp +decide [parse_expr, parse_loop, ha, hb, tk_num, tk_id, tk_lp, tk_rp, tk_end,
    parse_const, is_func, func_argc, close_paren, pop_op, drain, function_node]

/-- C20 on `2 log(8)` in the integer environment, from the line itself. -/
theorem C20_witness :
    lexer "2 log(8)" = [tk_num "2", tk_id "log", tk_lp, tk_num "8", tk_rp, tk_end] ∧
    parse_expr intEnv [tk_num "2", tk_id "log", tk_lp, tk_num "8", tk_rp, tk_end]
      = .ok (some (function_node intEnv "log"
          [value_node intEnv (int_re 2), value_node intEnv (int_re 8)])) :=
  ⟨by decide,
   C20_argument_taken_from_before_the_name intEnv "2" "8" (int_re 2) (int_re 8) rfl rfl⟩

/-! ## Stacked signs (C15) -/

theorem precedence_le_four (op : String) : precedence op ≤ 4 := by
  unfold precedence prec
  split_ifs <;> simp

theorem pop_operators_sign (F : FloatEnv) (s : String) (hs : s ∈ sign_ops)
    (out : List (Node F)) (ops : List Token) :
    pop_operators F ("u" ++ s) out ops = some (out, ops) := by
  have hp : precedence ("u" ++ s) = 4 ∧ is_left_assoc ("u" ++ s) = false := by
    simp only [sign_ops, List.mem_cons, List.mem_singleton, List.not_mem_nil, or_false] at hs
    rcases hs with rfl | rfl <;> decide
  cases ops with
  | nil => simp [pop_operators]
  | cons top ops =>
    have hle := precedence_le_four top.text
    have hnot : pops_before ("u" ++ s) top = false := by
      simp only [pops_before, hp.1, hp.2]
      simp
      intro _
      omega
    simp [pop_operators, hnot]

theorem parse_loop_signs (F : FloatEnv) (rest : List Token) :
    ∀ (signs : List String), (∀ s ∈ signs, s ∈ sign_ops) →
      ∀ (out : List (Node F)) (ops : List Token),
      parse_loop F (signs.map tk_op ++ rest) ⟨out, ops, true⟩
        = parse_loop F rest ⟨out, (signs.map tk_sign).reverse ++ ops, true⟩ := by
  intro signs
  induction signs with
  | nil => intro _ out ops; simp
  | cons s signs ih =>
    intro hall out ops
    have hs : s ∈ sign_ops := hall s (List.mem_cons_self _ _)
    have hs2 : s = "-" ∨ s = "+" := by
      simp only [sign_ops, List.mem_cons, List.mem_singleton, List.not_mem_nil,
        or_false] at hs
      exact hs.symm
    simp only [List.map_cons, List.cons_append, parse_loop, tk_op, hs2, and_self, if_true,
      pop_operators_sign F s hs]
    have := ih (fun x hx => hall x (List.mem_cons_of_mem _ hx)) out (tk_sign s :: ops)
    simp only [tk_op, tk_sign, List.append_eq] at this ⊢
    rw [this]
    simp

theorem pop_op_sign (F : FloatEnv) (s : String) (hs : s ∈ sign_ops) (n : Node F)
    (out : List (Node F)) :
    pop_op F (tk_sign s) (n :: out) = some (unary_node F s n :: out) := by
  simp only [sign_ops, List.mem_cons, List.mem_singleton, List.not_mem_nil, or_false] at hs
  rcases hs with rfl | rfl <;> simp +decide [pop_op, tk_sign, func_argc]

theorem drain_signs (F : FloatEnv) :
    ∀ (signs : List String), (∀ s ∈ signs, s ∈ sign_ops) →
      ∀ (n : Node F) (out : List (Node F)) (ops : List Token),
      drain F (n :: out) ((signs.map tk_sign).reverse ++ ops)
        = drain F (nest_signs F signs n :: out) ops := by
  intro signs
  induction signs with
  | nil => intro _ n out ops; simp [nest_signs]
  | cons s signs ih =>
    intro hall n out ops
    have hs : s ∈ sign_ops := hall s (List.mem_cons_self _ _)
    simp only [List.map_cons, List.reverse_cons, List.append_assoc, List.singleton_append]
    rw [ih (fun x hx => hall x (List.mem_cons_of_mem _ hx))]
    have hty : (tk_sign s).type = TokenType.Operator := rfl
    simp only [drain, hty, pop_op_sign F s hs]
    simp [nest_signs]

/-- C15: for a sequence of signs `s1 .. sn` (of any length, so for every
`n >= 1`) and a numeric literal `a`, `parse_expr` on the tokens of
`s1 s2 ... sn a` returns the tree `s1 (s2 (... sn (a)))`; and the tree of `--a`
evaluates to the value of `a`. -/
theorem C15_stacked_signs_nest (F : FloatEnv) (signs : List String) (a : String)
    (va : Complex F.D) (hall : ∀ s ∈ signs, s ∈ sign_ops)
    (ha : number_value F a = .ok va) :
    parse_expr F (signs.map tk_op ++ [tk_num a, tk_end])
      = .ok (some (nest_signs F signs (value_node F va))) ∧
    eval_expr F (nest_signs F ["-", "-"] (value_node F va)) = .ok (some va) := by
  constructor
  · unfold parse_expr
    rw [parse_loop_signs F _ signs hall, parse_loop_number F a va _ _ ha]
    simp only [parse_loop, tk_end]
    have := drain_signs F signs hall (value_node F va) [] []
    simp only [List.append_nil] at this
    simp only [List.append_nil, this, drain]
  · have h1 : eval_expr F (unary_node F "-" (value_node F va))
        = .ok (some ⟨F.neg va.re, F.neg va.im⟩) := by
      rw [unary_node, eval_expr_unary F "-" _ none va (eval_value_node F va)]
      simp
    have h2 := eval_expr_unary F "-" (unary_node F "-" (value_node F va)) none _ h1
    simp only [nest_signs, List.foldr_cons, List.foldr_nil]
    rw [unary_node, h2]
    simp [F.neg_neg]

/-- C15 on `--3` in the integer environment: the tree is `- (- (3))` and it
evaluates to 3. -/
theorem C15_witness :
    parse_expr intEnv [tk_op "-", tk_op "-", tk_num "3", tk_end]
      = .ok (some (unary_node intEnv "-" (unary_node intEnv "-"
          (value_node intEnv (int_re 3))))) ∧
    eval_expr intEnv (unary_node intEnv "-" (unary_node intEnv "-"
          (value_node intEnv (int_re 3)))) = .ok (some (int_re 3)) :=
  C15_stacked_signs_nest intEnv ["-", "-"] "3" (int_re 3) (by decide) rfl

/-! ## Lexer (C16, C17) -/

/-- C16: for every input string, `lexer` returns a non-empty token list whose
last token is the End token and which has no End token before the last. -/
theorem C16_lexer_ends_with_one_end (line : String) :
    lexer line ≠ [] ∧
    (lexer line).getLast? = some tk_end ∧
    ∀ t ∈ (lexer line).dropLast, t.type ≠ TokenType.End := by
  refine ⟨?_, ?_, ?_⟩
  · simp [lexer]
  · simp [lexer, tk_end]
  · intro t ht
    have : (lexer line).dropLast = lex_loop 0 line.data := by
      simp [lexer, List.dropLast_concat]
    rw [this] at ht
    exact lex_loop_no_end _ _ _ ht

theorem isnumch_not_space (c : Char) (h : isnumch c = true) : isspace c = false := by
  by_contra hs
  have hs1 : isspace c = true := by simpa using hs
  simp only [isspace, Bool.or_eq_true, decide_eq_true_eq] at hs1
  rcases hs1 with ((((rfl | rfl) | rfl) | rfl) | rfl) | rfl <;> revert h <;> decide

theorem lex_loop_skip (ys : List Char) :
    ∀ (xs : List Char), lex_loop xs.length (xs ++ ys) = lex_loop 0 ys := by
  intro xs
  induction xs with
  | nil => rfl
  | cons x xs ih => simpa [lex_loop] using ih

theorem number_text_append (a rest : List Char) (ha : ∀ c ∈ a, isnumch c = true)
    (hr : ∀ c, rest.head? = some c → isnumch c = false) :
    number_text (a ++ rest) = a ++ (if rest.head? = some 'i' then ['i'] else []) := by
  have ht : List.takeWhile isnumch rest = [] := by
    cases rest with
    | nil => rfl
    | cons r rs => simp [List.takeWhile_cons, hr r rfl]
  have hd : List.dropWhile isnumch rest = rest := by
    cases rest with
    | nil => rfl
    | cons r rs => simp [List.dropWhile_cons, hr r rfl]
  unfold number_text
  simp only [List.takeWhile_append_of_pos ha, List.dropWhile_append_of_pos ha, ht, hd,
    List.append_nil]

theorem lex_loop_number_step (c : Char) (cs : List Char) (hc : isnumch c = true) :
    lex_loop 0 (c :: cs)
      = ⟨TokenType.Number, String.mk (number_text (c :: cs))⟩
          :: lex_loop ((number_text (c :: cs)).length - 1) cs := by
  rw [lex_loop]
  simp [isnumch_not_space c hc, hc]

/-- The lexer on a run of digits and dots, followed by a character that is
neither a digit, a dot nor `i`: one Number token of the run. -/
theorem lex_loop_number_run (a : List Char) (r : Char) (rs : List Char) (hne : a ≠ [])
    (ha : ∀ c ∈ a, isnumch c = true) (hr : isnumch r = false) (hi : r ≠ 'i') :
    lex_loop 0 (a ++ r :: rs) = ⟨TokenType.Number, String.mk a⟩ :: lex_loop 0 (r :: rs) := by
  cases a with
  | nil => exact absurd rfl hne
  | cons c cs =>
    have hc : isnumch c = true := ha c (List.mem_cons_self _ _)
    have hnt : number_text (c :: (cs ++ r :: rs)) = c :: cs := by
      have := number_text_append (c :: cs) (r :: rs) ha
        (by intro x hx; simp at hx; rw [← hx]; exact hr)
      simpa [hi] using this
    rw [List.cons_append, lex_loop_number_step c _ hc, hnt]
    simp only [List.length_cons, Nat.add_sub_cancel]
    rw [lex_loop_skip]

/-- The lexer on a run of digits and dots followed by `i`: one Number token of
the run and the `i`. -/
theorem lex_loop_number_i (a : List Char) (rs : List Char) (hne : a ≠ [])
    (ha : ∀ c ∈ a, isnumch c = true) :
    lex_loop 0 (a ++ 'i' :: rs)
      = ⟨TokenType.Number, String.mk (a ++ ['i'])⟩ :: lex_loop 0 rs := by
  cases a with
  | nil => exact absurd rfl hne
  | cons c cs =>
    have hc : isnumch c = true := ha c (List.mem_cons_self _ _)
    have hnt : number_text (c :: (cs ++ 'i' :: rs)) = c :: (cs ++ ['i']) := by
      have := number_text_append (c :: cs) ('i' :: rs) ha
        (by intro x hx; simp at hx; rw [← hx]; decide)
      simpa using this
    rw [List.cons_append, lex_loop_number_step c _ hc, hnt]
    have := lex_loop_skip rs (cs ++ ['i'])
    simp only [List.length_append, List.length_singleton, List.append_assoc,
      List.singleton_append] at this
    simp only [List.length_cons, List.length_append, List.length_singleton,
      List.length_nil, Nat.zero_add, Nat.add_sub_cancel, List.cons_append]
    rw [this]

/-- C17: for non-empty strings `a` and `b` of digits and dots, the lexer on
`a`, `+`, `b`, `i` returns the four tokens Number `a`, Operator `+`, Number
`b` followed by `i`, End. -/
theorem C17_literal_does_not_absorb (a b : String) (hane : a.data ≠ []) (hbne : b.data ≠ [])
    (ha : ∀ c ∈ a.data, isnumch c = true) (hb : ∀ c ∈ b.data, isnumch c = true) :
    lexer (a ++ "+" ++ b ++ "i") = [tk_num a, tk_op "+", tk_num (b ++ "i"), tk_end] := by
  have hdata : (a ++ "+" ++ b ++ "i").data = a.data ++ '+' :: (b.data ++ 'i' :: []) := by
    simp [String.data_append]
  unfold lexer
  rw [hdata, lex_loop_number_run a.data '+' _ hane ha (by decide) (by decide)]
  have hplus : lex_loop 0 ('+' :: (b.data ++ ['i']))
      = ⟨TokenType.Operator, "+"⟩ :: lex_loop 0 (b.data ++ ['i']) := by
    simp +decide [lex_loop, punct]
  rw [hplus, lex_loop_number_i b.data [] hbne hb]
  simp [tk_num, tk_op, tk_end, lex_loop]
  rfl

/-- C17 on `3+4i`: the tokens are `3`, `+`, `4i`, End. -/
theorem C17_witness :
    lexer ("3" ++ "+" ++ "4" ++ "i") = [tk_num "3", tk_op "+", tk_num ("4" ++ "i"), tk_end] :=
  C17_literal_does_not_absorb "3" "4" (by decide) (by decide) (by decide) (by decide)

/-! ## Lexer keeps the recognised characters (C19) -/

theorem isspace_not_recognised (c : Char) (h : isspace c = true) : recognised c = false := by
  simp only [isspace, Bool.or_eq_true, decide_eq_true_eq] at h
  rcases h with ((((rfl | rfl) | rfl) | rfl) | rfl) | rfl <;> decide

theorem isnumch_recognised (c : Char) (h : isnumch c = true) : recognised c = true := by
  simp only [isnumch, Bool.or_eq_true, decide_eq_true_eq] at h
  rcases h with h | h <;> simp [recognised, h]

theorem isalpha_recognised (c : Char) (h : isalpha c = true) : recognised c = true := by
  simp [recognised, h]

theorem punct_recognised (c : Char) (t : Token) (h : punct c = some t) :
    recognised c = true ∧ t.text.data = [c] := by
  unfold punct at h
  split_ifs at h with h1 h2 h3 h4 <;> simp only [Option.some.injEq] at h <;> subst h
  · rcases h1 with rfl | rfl | rfl | rfl | rfl | rfl <;> exact ⟨by decide, rfl⟩
  · subst h2; exact ⟨by decide, rfl⟩
  · subst h3; exact ⟨by decide, rfl⟩
  · subst h4; exact ⟨by decide, rfl⟩

theorem punct_none_not_recognised (c : Char) (hn : isnumch c = false) (ha : isalpha c = false)
    (h : punct c = none) : recognised c = false := by
  unfold punct at h
  split_ifs at h with h1 h2 h3 h4
  simp only [isnumch, Bool.or_eq_false_iff, decide_eq_false_iff_not] at hn
  simp only [not_or] at h1
  simp [recognised, hn.1, hn.2, ha, h1, h2, h3, h4]

theorem number_text_split (l : List Char) :
    ∃ r, l = number_text l ++ r ∧ ∀ x ∈ number_text l, recognised x = true := by
  unfold number_text
  by_cases hi : (List.dropWhile isnumch l).head? = some 'i'
  · obtain ⟨r, hr⟩ : ∃ r, List.dropWhile isnumch l = 'i' :: r := by
      cases hd : List.dropWhile isnumch l with
      | nil => simp [hd] at hi
      | cons x xs =>
        simp [hd] at hi
        exact ⟨xs, by rw [hi]⟩
    refine ⟨r, ?_, ?_⟩
    · have := List.takeWhile_append_dropWhile isnumch l
      rw [hr] at this
      simp [hi, this]
    · intro x hx
      simp only [hi, if_true, List.mem_append, List.mem_singleton] at hx
      rcases hx with hx | rfl
      · exact isnumch_recognised x (List.mem_takeWhile_imp hx)
      · decide
  · refine ⟨List.dropWhile isnumch l, ?_, ?_⟩
    · simp [hi]
    · intro x hx
      simp only [hi, if_false, List.append_nil] at hx
      exact isnumch_recognised x (List.mem_takeWhile_imp hx)

theorem alpha_run_split (l : List Char) :
    ∃ r, l = List.takeWhile isalpha l ++ r ∧
      ∀ x ∈ List.takeWhile isalpha l, recognised x = true :=
  ⟨List.dropWhile isalpha l, (List.takeWhile_append_dropWhile isalpha l).symm,
   fun x hx => isalpha_recognised x (List.mem_takeWhile_imp hx)⟩

theorem filter_after_token (c : Char) (cs tok r : List Char) (hsplit : c :: cs = tok ++ r)
    (hne : tok ≠ []) (hrec : ∀ x ∈ tok, recognised x = true) :
    (c :: cs).filter recognised = tok ++ (cs.drop (tok.length - 1)).filter recognised := by
  cases tok with
  | nil => exact absurd rfl hne
  | cons t ts =>
    simp only [List.cons_append, List.cons.injEq] at hsplit
    obtain ⟨_, hcs⟩ := hsplit
    have hdrop : cs.drop ts.length = r := by
      rw [hcs]; simp
    have hfil : (t :: ts).filter recognised = t :: ts :=
      List.filter_eq_self.mpr hrec
    rw [show c :: cs = (t :: ts) ++ r by simp [hcs, ‹c = t›]]
    simp only [List.length_cons, Nat.add_sub_cancel]
    rw [List.filter_append, hfil, hcs]
    simp

theorem number_text_ne_nil (c : Char) (cs : List Char) (hc : isnumch c = true) :
    number_text (c :: cs) ≠ [] := by
  simp [number_text, List.takeWhile_cons, hc]

theorem lex_loop_texts :
    ∀ (cs : List Char) (skip : Nat),
      ((lex_loop skip cs).map (fun t => t.text.data)).flatten
        = (cs.drop skip).filter recognised := by
  intro cs
  induction cs with
  | nil => intro skip; simp [lex_loop]
  | cons c cs ih =>
    intro skip
    cases skip with
    | succ k => simpa [lex_loop] using ih k
    | zero =>
      rw [lex_loop, List.drop_zero]
      by_cases hsp : isspace c = true
      · rw [if_pos hsp, ih 0, List.drop_zero, List.filter_cons,
          isspace_not_recognised c hsp]
        simp
      · rw [if_neg hsp]
        by_cases hnum : isnumch c = true
        · rw [if_pos hnum]
          obtain ⟨r, hsplit, hrec⟩ := number_text_split (c :: cs)
          rw [filter_after_token c cs _ r hsplit (number_text_ne_nil c cs hnum) hrec]
          simp only [List.map_cons, List.flatten_cons, ih]
        · rw [if_neg hnum]
          by_cases halpha : isalpha c = true
          · rw [if_pos halpha]
            obtain ⟨r, hsplit, hrec⟩ := alpha_run_split (c :: cs)
            have hne : List.takeWhile isalpha (c :: cs) ≠ [] := by
              simp [List.takeWhile_cons, halpha]
            rw [filter_after_token c cs _ r hsplit hne hrec]
            simp only [List.map_cons, List.flatten_cons, ih]
          · rw [if_neg halpha]
            cases hp : punct c with
            | some t =>
              obtain ⟨hrec, htext⟩ := punct_recognised c t hp
              simp only [List.map_cons, List.flatten_cons, ih, htext, List.drop_zero,
                List.filter_cons, hrec, if_true]
              simp
            | none =>
              have hrec := punct_none_not_recognised c (by simpa using hnum)
                (by simpa using halpha) hp
              simp only [ih, List.drop_zero, List.filter_cons, hrec]
              simp

/-- C19: the concatenation of the texts of the tokens of `lexer s`, in order,
is `s` without the characters that are not recognised. -/
theorem C19_lexer_keeps_recognised_characters (s : String) :
    String.join ((lexer s).map Token.text) = String.mk (s.data.filter recognised) := by
  rw [String.join_eq]
  congr 1
  have := lex_loop_texts s.data 0
  simp only [List.drop_zero] at this
  simp [lexer, ← this, Function.comp_def]

/-! ## Operands and operations are kept (C18) -/

theorem leaf_values_list_append (F : FloatEnv) (xs ys : List (Node F)) :
    leaf_values.leaf_values_list F (xs ++ ys)
      = leaf_values.leaf_values_list F xs ++ leaf_values.leaf_values_list F ys := by
  induction xs with
  | nil => simp [leaf_values.leaf_values_list]
  | cons x xs ih => simp [leaf_values.leaf_values_list, ih]

theorem count_operations_list_append (F : FloatEnv) (xs ys : List (Node F)) :
    count_operations.count_operations_list F (xs ++ ys)
      = count_operations.count_operations_list F xs
        + count_operations.count_operations_list F ys := by
  induction xs with
  | nil => simp [count_operations.count_operations_list]
  | cons x xs ih => simp [count_operations.count_operations_list, ih, Nat.add_assoc]

theorem count_operations_list_reverse (F : FloatEnv) (xs : List (Node F)) :
    count_operations.count_operations_list F xs.reverse
      = count_operations.count_operations_list F xs := by
  induction xs with
  | nil => rfl
  | cons x xs ih =>
    simp [count_operations_list_append, count_operations.count_operations_list, ih,
      Nat.add_comm]

theorem pop_op_operands (F : FloatEnv) (top : Token) (out out1 : List (Node F))
    (h : pop_op F top out = some out1) :
    leaf_values.leaf_values_list F out1.reverse = leaf_values.leaf_values_list F out.reverse ∧
    count_operations.count_operations_list F out1
      = count_operations.count_operations_list F out + 1 := by
  unfold pop_op at h
  cases hfa : func_argc top.text with
  | some argc =>
    simp only [hfa] at h
    split_ifs at h with hlt
    simp only [Option.some.injEq] at h
    subst h
    have hrev : out.reverse = (out.drop argc).reverse ++ (out.take argc).reverse := by
      rw [← List.reverse_append, List.take_append_drop]
    have hcnt : count_operations.count_operations_list F out
        = count_operations.count_operations_list F (out.take argc)
          + count_operations.count_operations_list F (out.drop argc) := by
      rw [← count_operations_list_append, List.take_append_drop]
    constructor
    · rw [hrev, leaf_values_list_append]
      simp [leaf_values_list_append, leaf_values.leaf_values_list, function_node, leaf_values]
    · rw [hcnt]
      simp only [count_operations.count_operations_list, function_node, count_operations,
        count_operations_list_reverse]
      omega
  | none =>
    simp only [hfa] at h
    split_ifs at h with hm hp
    · cases out with
      | nil => simp at h
      | cons operand rest =>
        simp only [Option.some.injEq] at h
        subst h
        simp [leaf_values_list_append, leaf_values.leaf_values_list, unary_node, leaf_values,
          count_operations.count_operations_list, count_operations]
        omega
    · cases out with
      | nil => simp at h
      | cons operand rest =>
        simp only [Option.some.injEq] at h
        subst h
        simp [leaf_values_list_append, leaf_values.leaf_values_list, unary_node, leaf_values,
          count_operations.count_operations_list, count_operations]
        omega
    · match out, h with
      | r :: l :: rest, h =>
        simp only [Option.some.injEq] at h
        subst h
        simp [leaf_values_list_append, leaf_values.leaf_values_list, binary_node, leaf_values,
          count_operations.count_operations_list, count_operations]
        omega

theorem pop_operators_operands (F : FloatEnv) (op_text : String) :
    ∀ (ops : List Token) (out out1 : List (Node F)) (ops1 : List Token),
      pop_operators F op_text out ops = some (out1, ops1) →
      leaf_values.leaf_values_list F out1.reverse = leaf_values.leaf_values_list F out.reverse ∧
      count_operations.count_operations_list F out1 + pending ops1
        = count_operations.count_operations_list F out + pending ops := by
  intro ops
  induction ops with
  | nil =>
    intro out out1 ops1 h
    simp [pop_operators] at h
    obtain ⟨h1, h2⟩ := h
    subst h1 h2
    exact ⟨rfl, rfl⟩
  | cons top ops ih =>
    intro out out1 ops1 h
    simp only [pop_operators] at h
    split at h
    · rename_i hp
      have hty : top.type = TokenType.Operator := by
        simp [pops_before] at hp; exact hp.1
      cases hpop : pop_op F top out with
      | none => simp [hpop] at h
      | some o =>
        simp only [hpop] at h
        obtain ⟨hl, hc⟩ := pop_op_operands F top out o hpop
        obtain ⟨hl1, hc1⟩ := ih _ _ _ h
        refine ⟨hl1.trans hl, ?_⟩
        simp only [pending, List.countP_cons, hty] at hc1 ⊢
        simp at hc1 ⊢
        omega
    · simp at h
      obtain ⟨h1, h2⟩ := h
      subst h1 h2
      exact ⟨rfl, rfl⟩

theorem close_paren_operands (F : FloatEnv) :
    ∀ (ops : List Token) (out out1 : List (Node F)) (ops1 : List Token),
      close_paren F out ops = some (out1, ops1) →
      leaf_values.leaf_values_list F out1.reverse = leaf_values.leaf_values_list F out.reverse ∧
      count_operations.count_operations_list F out1 + pending ops1
        = count_operations.count_operations_list F out + pending ops := by
  intro ops
  induction ops with
  | nil =>
    intro out out1 ops1 h
    simp [close_paren] at h
  | cons top ops ih =>
    intro out out1 ops1 h
    simp only [close_paren] at h
    split at h
    · rename_i hty
      simp at h
      obtain ⟨h1, h2⟩ := h
      subst h1 h2
      refine ⟨rfl, ?_⟩
      simp [pending, List.countP_cons, hty]
    · rename_i hty
      cases hpop : pop_op F top out with
      | none => simp [hpop] at h
      | some o =>
        simp only [hpop] at h
        obtain ⟨hl, hc⟩ := pop_op_operands F top out o hpop
        obtain ⟨hl1, hc1⟩ := ih _ _ _ h
        refine ⟨hl1.trans hl, ?_⟩
        simp only [pending, List.countP_cons] at hc1 ⊢
        simp [hty] at hc1 ⊢
        omega

theorem pop_to_paren_operands (F : FloatEnv) :
    ∀ (ops : List Token) (out out1 : List (Node F)) (ops1 : List Token),
      pop_to_paren F out ops = some (out1, ops1) →
      leaf_values.leaf_values_list F out1.reverse = leaf_values.leaf_values_list F out.reverse ∧
      count_operations.count_operations_list F out1 + pending ops1
        = count_operations.count_operations_list F out + pending ops := by
  intro ops
  induction ops with
  | nil =>
    intro out out1 ops1 h
    simp [pop_to_paren] at h
  | cons top ops ih =>
    intro out out1 ops1 h
    simp only [pop_to_paren] at h
    split at h
    · simp at h
      obtain ⟨h1, h2⟩ := h
      subst h1 h2
      exact ⟨rfl, rfl⟩
    · rename_i hty
      cases hpop : pop_op F top out with
      | none => simp [hpop] at h
      | some o =>
        simp only [hpop] at h
        obtain ⟨hl, hc⟩ := pop_op_operands F top out o hpop
        obtain ⟨hl1, hc1⟩ := ih _ _ _ h
        refine ⟨hl1.trans hl, ?_⟩
        simp only [pending, List.countP_cons] at hc1 ⊢
        simp [hty] at hc1 ⊢
        omega

theorem drain_operands (F : FloatEnv) :
    ∀ (ops : List Token) (out out1 : List (Node F)),
      drain F out ops = some out1 →
      leaf_values.leaf_values_list F out1.reverse = leaf_values.leaf_values_list F out.reverse ∧
      count_operations.count_operations_list F out1
        = count_operations.count_operations_list F out + pending ops := by
  intro ops
  induction ops with
  | nil =>
    intro out out1 h
    simp [drain] at h
    subst h
    exact ⟨rfl, rfl⟩
  | cons top ops ih =>
    intro out out1 h
    simp only [drain] at h
    split at h
    · simp at h
    · rename_i hty
      cases hpop : pop_op F top out with
      | none => simp [hpop] at h
      | some o =>
        simp only [hpop] at h
        obtain ⟨hl, hc⟩ := pop_op_operands F top out o hpop
        obtain ⟨hl1, hc1⟩ := ih _ _ h
        have hlp : ¬ top.type = TokenType.LeftParen := fun e => hty (Or.inl e)
        refine ⟨hl1.trans hl, ?_⟩
        simp only [pending, List.countP_cons] at hc1 ⊢
        simp [hlp] at hc1 ⊢
        omega

theorem parse_loop_operands (F : FloatEnv) :
    ∀ (ts : List Token) (st st1 : PState F), parse_loop F ts st = .ok (some st1) →
      leaf_values.leaf_values_list F st1.output.reverse
        = leaf_values.leaf_values_list F st.output.reverse
          ++ ((before_end ts).filterMap (token_operand F)).map some ∧
      count_operations.count_operations_list F st1.output + pending st1.ops
        = count_operations.count_operations_list F st.output + pending st.ops
          + (before_end ts).countP is_operation_token := by
  intro ts
  induction ts with
  | nil =>
    intro st st1 h
    simp [parse_loop] at h
    subst h
    simp [before_end]
  | cons t ts ih =>
    intro st st1 h
    rcases t with ⟨ty, text⟩
    have key : ∀ (st2 : PState F) (o : Option (Complex F.D)) (k : Nat),
        parse_loop F ts st2 = .ok (some st1) → ty ≠ TokenType.End →
        token_operand F ⟨ty, text⟩ = o →
        k = (if is_operation_token ⟨ty, text⟩ = true then 1 else 0) →
        leaf_values.leaf_values_list F st2.output.reverse
          = leaf_values.leaf_values_list F st.output.reverse ++ o.toList.map some →
        count_operations.count_operations_list F st2.output + pending st2.ops
          = count_operations.count_operations_list F st.output + pending st.ops + k →
        leaf_values.leaf_values_list F st1.output.reverse
          = leaf_values.leaf_values_list F st.output.reverse
            ++ ((before_end (⟨ty, text⟩ :: ts)).filterMap (token_operand F)).map some ∧
        count_operations.count_operations_list F st1.output + pending st1.ops
          = count_operations.count_operations_list F st.output + pending st.ops
            + (before_end (⟨ty, text⟩ :: ts)).countP is_operation_token := by
      intro st2 o k h2 hne ho hk hleaf hcount
      obtain ⟨ihl, ihc⟩ := ih st2 st1 h2
      rw [before_end_cons]
      simp only [hne, if_false]
      constructor
      · rw [ihl, hleaf, List.filterMap_cons, ho]
        cases o <;> simp
      · rw [ihc, hcount, List.countP_cons, hk]
        omega
    cases ty <;> simp only [parse_loop] at h
    case Number =>
      split at h
      · simp at h
      · rename_i v hv
        refine key _ (some v) 0 h (by decide) ?_ (by simp [is_operation_token]) ?_ ?_
        · simp [token_operand, hv]
        · simp [leaf_values_list_append, leaf_values.leaf_values_list, value_node,
            leaf_values]
        · simp [count_operations.count_operations_list, value_node, count_operations]
    case Identifier =>
      split at h
      · rename_i c hc
        refine key _ (some c) 0 h (by decide) ?_ ?_ ?_ ?_
        · simp [token_operand, hc]
        · have hnf : is_func text = false := by
            cases hf : func_argc text with
            | none => simp [is_func, hf]
            | some n =>
              have := func_not_const F text n hf
              rw [this] at hc
              simp at hc
          simp [is_operation_token, hnf]
        · simp [leaf_values_list_append, leaf_values.leaf_values_list, value_node,
            leaf_values]
        · simp [count_operations.count_operations_list, value_node, count_operations]
      · rename_i hc
        split at h
        · rename_i hfun
          refine key _ none 1 h (by decide) ?_ ?_ ?_ ?_
          · simp [token_operand, hc]
          · simp [is_operation_token, hfun]
          · simp
          · simp [pending, List.countP_cons]
            omega
        · simp at h
    case Operator =>
      split at h
      · simp at h
      · rename_i out ops hpo
        obtain ⟨hl, hc⟩ := pop_operators_operands F _ _ _ _ _ hpo
        refine key _ none 1 h (by decide) ?_ ?_ ?_ ?_
        · simp [token_operand]
        · simp [is_operation_token]
        · simpa using hl
        · simp only [pending, List.countP_cons] at hc ⊢
          simp at hc ⊢
          omega
    case LeftParen =>
      refine key _ none 0 h (by decide) ?_ ?_ ?_ ?_
      · simp [token_operand]
      · simp [is_operation_token]
      · simp
      · simp [pending, List.countP_cons]
    case RightParen =>
      split at h
      · simp at h
      · rename_i out ops hcp
        obtain ⟨hl, hc⟩ := close_paren_operands F _ _ _ _ hcp
        split at h
        · rename_i top ops1
          split at h
          · rename_i hid
            split at h
            · simp at h
            · rename_i out2 hpop
              obtain ⟨hl2, hc2⟩ := pop_op_operands F top out out2 hpop
              refine key _ none 0 h (by decide) ?_ ?_ ?_ ?_
              · simp [token_operand]
              · simp [is_operation_token]
              · simpa using hl2.trans hl
              · simp only [pending, List.countP_cons] at hc ⊢
                simp [hid.1] at hc ⊢
                omega
          · refine key _ none 0 h (by decide) ?_ ?_ ?_ ?_
            · simp [token_operand]
            · simp [is_operation_token]
            · simpa using hl
            · simpa using hc
        · refine key _ none 0 h (by decide) ?_ ?_ ?_ ?_
          · simp [token_operand]
          · simp [is_operation_token]
          · simpa using hl
          · simpa using hc
    case Comma =>
      split at h
      · simp at h
      · rename_i out ops hpp
        obtain ⟨hl, hc⟩ := pop_to_paren_operands F _ _ _ _ hpp
        refine key _ none 0 h (by decide) ?_ ?_ ?_ ?_
        · simp [token_operand]
        · simp [is_operation_token]
        · simpa using hl
        · simpa using hc
    case End =>
      simp at h
      subst h
      simp [before_end_cons]

/-- C18: for every token sequence on which `parse_expr` returns a tree, the
values of the Value nodes of the tree, read left to right, are the values of
the Number and constant tokens before the first End token, in token order,
and the number of BinaryOp, UnaryOp and Function nodes is the number of
Operator and function-name Identifier tokens before the first End token. -/
theorem C18_operands_kept_in_order (F : FloatEnv) (tokens : List Token) (t : Node F)
    (h : parse_expr F tokens = .ok (some t)) :
    leaf_values F t = (operand_values F tokens).map some ∧
    count_operations F t = operation_count tokens := by
  unfold parse_expr at h
  cases hl : parse_loop F tokens ⟨[], [], true⟩ with
  | error e => simp [hl] at h
  | ok r =>
    cases r with
    | none => simp [hl] at h
    | some st =>
      simp only [hl] at h
      obtain ⟨hleaf, hcount⟩ := parse_loop_operands F tokens _ st hl
      cases hd : drain F st.output st.ops with
      | none => simp [hd] at h
      | some out =>
        obtain ⟨hl2, hc2⟩ := drain_operands F _ _ _ hd
        simp only [hd] at h
        match out, h, hl2, hc2 with
        | [root], h, hl2, hc2 =>
          simp at h
          subst h
          simp only [List.reverse_nil, leaf_values.leaf_values_list, List.nil_append,
            count_operations.count_operations_list, pending, List.countP_nil,
            Nat.zero_add, Nat.add_zero, List.reverse_cons, List.append_nil] at hleaf hcount hl2 hc2
          constructor
          · rw [operand_values, ← hleaf, ← hl2]
          · rw [operation_count, ← hcount, ← hc2]

/-- C18 on the line `2+3*4` in the integer environment: the leaves are 2, 3,
4 and there are two operator nodes for two Operator tokens. -/
theorem C18_witness :
    leaf_values intEnv (binary_node intEnv "+" (value_node intEnv (int_re 2))
      (binary_node intEnv "*" (value_node intEnv (int_re 3)) (value_node intEnv (int_re 4))))
      = (operand_values intEnv (lexer "2+3*4")).map some ∧
    count_operations intEnv (binary_node intEnv "+" (value_node intEnv (int_re 2))
      (binary_node intEnv "*" (value_node intEnv (int_re 3)) (value_node intEnv (int_re 4))))
      = operation_count (lexer "2+3*4") :=
  C18_operands_kept_in_order intEnv (lexer "2+3*4") _ rfl

end Blicalc
